import Mathlib

set_option maxHeartbeats 1000000

namespace sjtu

/- ================================================================
   Sequence-level embedding of the structural algorithms of
   `list<T>` (src/list.hpp): `merge` and `unique`.

   Both algorithms only relink nodes, so their effect on the element
   sequence is captured by a recursion over the two cursor positions.
   ================================================================ -/

/-- The merge loop of `list::merge` (the simple two-cursor recursion):
`mergeCore lt as bs` is the sequence produced when the cursor `ai`
stands at the first element of `as` and `bi` at the first of `bs`.
When `bi` has reached `other.tail` (`bs = []`) the loop ends and the
rest of `as` stays in place; when `ai` has reached `tail` the second
loop appends the rest of `bs` before `tail`.  In the loop body, the
node `bi` is relinked before `ai` exactly when `*bi < *ai`. -/
def mergeCore (lt : α → α → Bool) : List α → List α → List α
  | as, [] => as
  | [], b :: bs => b :: mergeCore lt [] bs
  | a :: as, b :: bs =>
    if lt b a then b :: mergeCore lt (a :: as) bs
    else a :: mergeCore lt as (b :: bs)
termination_by as bs => as.length + bs.length

/-- The merge loop of `list::merge` with the already-merged prefix made
explicit: `done` is the part of `this` that lies before the cursor
`ai`.  Relinking `bi` before `ai` extends `done` by that element;
advancing `ai` moves the element under `ai` into `done`. -/
def mergeRun (lt : α → α → Bool) : List α → List α → List α → List α
  | done, as, [] => done ++ as
  | done, [], b :: bs => mergeRun lt (done ++ [b]) [] bs
  | done, a :: as, b :: bs =>
    if lt b a then mergeRun lt (done ++ [b]) (a :: as) bs
    else mergeRun lt (done ++ [a]) as (b :: bs)
termination_by _ as bs => as.length + bs.length

/-- `list::merge(other)` at the level of element sequences.
`sameObject` models the `&other == this` pointer test: when it holds
the call returns at once; otherwise the loops run and afterwards
`other`'s chain is reset to empty (`other.head->next = other.tail`). -/
def mergeOp (lt : α → α → Bool) (sameObject : Bool) (A B : List α) :
    List α × List α :=
  if sameObject then (A, B) else (mergeRun lt [] A B, [])

/-- Tagged elements: a value together with its origin
(`false` = from `this`/A, `true` = from `other`/B). -/
abbrev Tagged := Nat × Bool

/-- The element comparison `*bi < *ai` on tagged values: only the value
takes part, never the tag. -/
def ltv (x y : Tagged) : Bool := decide (x.1 < y.1)

/-- The loop of `list::unique`: keep the element under `cur`, erase the
following nodes while they compare equal to it, continue from the
first non-equal node. -/
def uniqueCore (eqb : α → α → Bool) : List α → List α
  | [] => []
  | c :: rest => c :: uniqueCore eqb (rest.dropWhile (eqb c))
termination_by l => l.length
decreasing_by
  simp only [List.length_cons]
  exact Nat.lt_succ_of_le (List.dropWhile_suffix (eqb c)).length_le

/-- `list::unique()`: the `n <= 1` early return, then the scan. -/
def uniqueOp (eqb : α → α → Bool) (l : List α) : List α :=
  if l.length ≤ 1 then l else uniqueCore eqb l

/-- The number of maximal runs of adjacent equal elements: one per
element that differs from its predecessor, plus one for the head. -/
def runsCount [DecidableEq α] : List α → Nat
  | [] => 0
  | [_] => 1
  | a :: b :: t => (if a = b then 0 else 1) + runsCount (b :: t)

/- ================================================================
   Pointer-level embedding of `list<T>` (src/list.hpp).

   Nodes live in a heap addressed by natural numbers; `prev`, `next`
   and `val` model the C++ pointers (`none` = nullptr).  An operation
   returns `Out`: a normal return, a thrown exception carrying the
   state as it is at the throw point, or undefined behaviour (`ub`)
   when a null or dangling pointer would be dereferenced.
   ================================================================ -/

/-- The two exception types of `exceptions.hpp` thrown by `list`. -/
inductive Err where
  | containerIsEmpty : Err
  | invalidIterator : Err
deriving DecidableEq, Repr

/-- `list<T>::node`: `val` is the owned element pointer (`none` for
the two sentinels). -/
structure Node (α : Type) where
  prev : Option Nat
  next : Option Nat
  val : Option α
deriving DecidableEq, Repr

/-- The allocated nodes, as an association list address ↦ node. -/
abbrev Heap (α : Type) := List (Nat × Node α)

/-- Read the node at address `i` (`none`: nothing allocated there). -/
def hget : Heap α → Nat → Option (Node α)
  | [], _ => none
  | e :: t, i => if e.1 = i then some e.2 else hget t i

/-- Overwrite the node at address `i` (no effect if `i` is absent). -/
def hset : Heap α → Nat → Node α → Heap α
  | [], _, _ => []
  | e :: t, i, nd => if e.1 = i then (i, nd) :: hset t i nd else e :: hset t i nd

/-- Deallocate the node at address `i`. -/
def hdel : Heap α → Nat → Heap α
  | [], _ => []
  | e :: t, i => if e.1 = i then hdel t i else e :: hdel t i

/-- The addresses of the allocated nodes. -/
def keys (h : Heap α) : List Nat := h.map Prod.fst

/-- A `list<T>` object: its own identity (`self`, the C++ `this`
pointer, compared by iterator ownership checks), the owned heap, the
two sentinel addresses, the count `n`, and the next fresh address. -/
structure ListS (α : Type) where
  self : Nat
  heap : Heap α
  head : Nat
  tail : Nat
  n : Nat
  fresh : Nat
deriving DecidableEq, Repr

/-- An iterator: referenced node and owning list (`none` = nullptr,
as in a default-constructed iterator). -/
structure Iter where
  p : Option Nat
  owner : Option Nat
deriving DecidableEq, Repr

/-- Outcome of an operation: `ok state value`, `err state exception`
(`state` is the program state at the moment of the throw), or `ub`
for an invalid memory access (C++ undefined behaviour). -/
inductive Out (σ : Type) (β : Type) where
  | ok : σ → β → Out σ β
  | err : σ → Err → Out σ β
  | ub : Out σ β
deriving DecidableEq, Repr

/-- Protected `list::insert(node *pos, node *cur)`: link `cur` in
front of `pos`, statement by statement (`cur->next = pos;
cur->prev = pos->prev; pos->prev->next = cur; pos->prev = cur;`).
`none` = a null or dangling pointer was dereferenced. -/
def linkBefore (h : Heap α) (pos cur : Nat) : Option (Heap α) :=
  match hget h pos, hget h cur with
  | some posN, some curN =>
    let h1 := hset h cur { curN with next := some pos, prev := posN.prev }
    match posN.prev with
    | none => none
    | some pp =>
      match hget h1 pp with
      | none => none
      | some ppN =>
        let h2 := hset h1 pp { ppN with next := some cur }
        match hget h2 pos with
        | none => none
        | some posN2 => some (hset h2 pos { posN2 with prev := some cur })
  | _, _ => none

/-- Protected `list::erase(node *pos)`: unlink `pos` from the chain
(`p->prev->next = p->next; p->next->prev = p->prev;
p->prev = p->next = nullptr;`); the node itself stays allocated. -/
def unlink (h : Heap α) (q : Nat) : Option (Heap α) :=
  match hget h q with
  | none => none
  | some nd =>
    match nd.prev with
    | none => none
    | some pp =>
      match hget h pp with
      | none => none
      | some ppN =>
        let h1 := hset h pp { ppN with next := nd.next }
        match hget h1 q with
        | none => none
        | some nd1 =>
          match nd1.next with
          | none => none
          | some qq =>
            match hget h1 qq with
            | none => none
            | some qqN =>
              let h2 := hset h1 qq { qqN with prev := nd1.prev }
              match hget h2 q with
              | none => none
              | some nd2 =>
                some (hset h2 q { nd2 with prev := none, next := none })

/-- `list::list()`: head and tail sentinels allocated and linked to
each other (addresses 0 and 1). -/
def mkList (α : Type) (self : Nat) : ListS α :=
  { self := self
    heap := [(0, ⟨none, some 1, none⟩), (1, ⟨some 0, none, none⟩)]
    head := 0
    tail := 1
    n := 0
    fresh := 2 }

/-- `list::begin()`: `iterator(head->next, this)`. -/
def beginIt (L : ListS α) : Option Iter :=
  match hget L.heap L.head with
  | none => none
  | some hd => some ⟨hd.next, some L.self⟩

/-- `list::end()`: `iterator(tail, this)`. -/
def endIt (L : ListS α) : Iter := ⟨some L.tail, some L.self⟩

/-- `iterator::operator--()` (the pre-decrement).  `L` is the state of
the owning list; an iterator bound to a different list object cannot
be navigated within this single-list embedding and maps to `ub`. -/
def decPre (L : ListS α) (it : Iter) : Out Iter Iter :=
  match it.owner, it.p with
  | none, _ => .err it .invalidIterator
  | some _, none => .err it .invalidIterator
  | some o, some p =>
    if o = L.self then
      if p = L.head then .err it .invalidIterator
      else if p = L.tail then
        if L.n = 0 then .err it .invalidIterator
        else
          match hget L.heap L.tail with
          | none => .ub
          | some tl => .ok ⟨tl.prev, it.owner⟩ ⟨tl.prev, it.owner⟩
      else
        match hget L.heap p with
        | none => .ub
        | some nd => .ok ⟨nd.prev, it.owner⟩ ⟨nd.prev, it.owner⟩
    else .ub

/-- `iterator::operator--(int)` (the post-decrement): same checks and
move, but the returned value is the original iterator. -/
def decPost (L : ListS α) (it : Iter) : Out Iter Iter :=
  match it.owner, it.p with
  | none, _ => .err it .invalidIterator
  | some _, none => .err it .invalidIterator
  | some o, some p =>
    if o = L.self then
      if p = L.head then .err it .invalidIterator
      else if p = L.tail then
        if L.n = 0 then .err it .invalidIterator
        else
          match hget L.heap L.tail with
          | none => .ub
          | some tl => .ok ⟨tl.prev, it.owner⟩ it
      else
        match hget L.heap p with
        | none => .ub
        | some nd => .ok ⟨nd.prev, it.owner⟩ it
    else .ub

/-- `iterator::operator++()` (the pre-increment). -/
def incPre (L : ListS α) (it : Iter) : Out Iter Iter :=
  match it.owner, it.p with
  | none, _ => .err it .invalidIterator
  | some _, none => .err it .invalidIterator
  | some o, some p =>
    if o = L.self then
      if p = L.tail then .err it .invalidIterator
      else
        match hget L.heap p with
        | none => .ub
        | some nd => .ok ⟨nd.next, it.owner⟩ ⟨nd.next, it.owner⟩
    else .ub

/-- `iterator::operator++(int)` (the post-increment). -/
def incPost (L : ListS α) (it : Iter) : Out Iter Iter :=
  match it.owner, it.p with
  | none, _ => .err it .invalidIterator
  | some _, none => .err it .invalidIterator
  | some o, some p =>
    if o = L.self then
      if p = L.tail then .err it .invalidIterator
      else
        match hget L.heap p with
        | none => .ub
        | some nd => .ok ⟨nd.next, it.owner⟩ it
    else .ub

/-- `iterator::operator*()`: all validity checks of the source in
order (`owner == nullptr || p == nullptr || p == owner->head ||
p == owner->tail || p->val == nullptr`), then the stored value. -/
def derefIt (L : ListS α) (it : Iter) : Out Iter α :=
  match it.owner, it.p with
  | none, _ => .err it .invalidIterator
  | some _, none => .err it .invalidIterator
  | some o, some p =>
    if o = L.self then
      if p = L.head then .err it .invalidIterator
      else if p = L.tail then .err it .invalidIterator
      else
        match hget L.heap p with
        | none => .ub
        | some nd =>
          match nd.val with
          | none => .err it .invalidIterator
          | some v => .ok it v
    else .ub

/-- `iterator::operator->()`: identical checks to `operator*`; the
result models the dereferenced `p->val`. -/
def arrowIt (L : ListS α) (it : Iter) : Out Iter α :=
  match it.owner, it.p with
  | none, _ => .err it .invalidIterator
  | some _, none => .err it .invalidIterator
  | some o, some p =>
    if o = L.self then
      if p = L.head then .err it .invalidIterator
      else if p = L.tail then .err it .invalidIterator
      else
        match hget L.heap p with
        | none => .ub
        | some nd =>
          match nd.val with
          | none => .err it .invalidIterator
          | some v => .ok it v
    else .ub

/-- `list::insert(iterator pos, const T &value)`: validate the
iterator, allocate a new node at the next fresh address, link it
before `pos`, bump the count, return an iterator to it. -/
def insertOp (L : ListS α) (pos : Iter) (v : α) : Out (ListS α) Iter :=
  if pos.owner = some L.self then
    match pos.p with
    | none => .err L .invalidIterator
    | some p =>
      let c := L.fresh
      let h0 := L.heap ++ [(c, ⟨none, none, some v⟩)]
      match linkBefore h0 p c with
      | none => .ub
      | some h1 =>
        .ok { L with heap := h1, n := L.n + 1, fresh := c + 1 } ⟨some c, some L.self⟩
  else .err L .invalidIterator

/-- `list::erase(iterator pos)`: the emptiness check, the iterator
validation (`pos.owner != this || pos.p == nullptr || pos.p == tail`),
then `erase(pos.p); delete pos.p; --n;` and an iterator to the node
that followed (`pos.p->next` read before the unlink). -/
def eraseOp (L : ListS α) (pos : Iter) : Out (ListS α) Iter :=
  if L.n = 0 then .err L .containerIsEmpty
  else if pos.owner = some L.self then
    match pos.p with
    | none => .err L .invalidIterator
    | some p =>
      if p = L.tail then .err L .invalidIterator
      else
        match hget L.heap p with
        | none => .ub
        | some nd =>
          match unlink L.heap p with
          | none => .ub
          | some h1 =>
            .ok { L with heap := hdel h1 p, n := L.n - 1 } ⟨nd.next, some L.self⟩
  else .err L .invalidIterator

/-- `list::push_back(value)`: allocate, link before `tail`, `++n`. -/
def pushBack (L : ListS α) (v : α) : Out (ListS α) Unit :=
  let c := L.fresh
  let h0 := L.heap ++ [(c, ⟨none, none, some v⟩)]
  match linkBefore h0 L.tail c with
  | none => .ub
  | some h1 => .ok { L with heap := h1, n := L.n + 1, fresh := c + 1 } ()

/-- `list::push_front(value)`: allocate, link before `head->next`. -/
def pushFront (L : ListS α) (v : α) : Out (ListS α) Unit :=
  let c := L.fresh
  let h0 := L.heap ++ [(c, ⟨none, none, some v⟩)]
  match hget h0 L.head with
  | none => .ub
  | some hd =>
    match hd.next with
    | none => .ub
    | some first =>
      match linkBefore h0 first c with
      | none => .ub
      | some h1 => .ok { L with heap := h1, n := L.n + 1, fresh := c + 1 } ()

/-- `list::pop_back()`: emptiness check, then unlink and delete
`tail->prev`. -/
def popBack (L : ListS α) : Out (ListS α) Unit :=
  if L.n = 0 then .err L .containerIsEmpty
  else
    match hget L.heap L.tail with
    | none => .ub
    | some tl =>
      match tl.prev with
      | none => .ub
      | some last =>
        match unlink L.heap last with
        | none => .ub
        | some h1 => .ok { L with heap := hdel h1 last, n := L.n - 1 } ()

/-- `list::pop_front()`: emptiness check, then unlink and delete
`head->next`. -/
def popFront (L : ListS α) : Out (ListS α) Unit :=
  if L.n = 0 then .err L .containerIsEmpty
  else
    match hget L.heap L.head with
    | none => .ub
    | some hd =>
      match hd.next with
      | none => .ub
      | some first =>
        match unlink L.heap first with
        | none => .ub
        | some h1 => .ok { L with heap := hdel h1 first, n := L.n - 1 } ()

/-- `list::front()`: `*(head->next->val)` after the emptiness check. -/
def frontOp (L : ListS α) : Out (ListS α) α :=
  if L.n = 0 then .err L .containerIsEmpty
  else
    match hget L.heap L.head with
    | none => .ub
    | some hd =>
      match hd.next with
      | none => .ub
      | some first =>
        match hget L.heap first with
        | none => .ub
        | some nd =>
          match nd.val with
          | none => .ub
          | some v => .ok L v

/-- `list::back()`: `*(tail->prev->val)` after the emptiness check. -/
def backOp (L : ListS α) : Out (ListS α) α :=
  if L.n = 0 then .err L .containerIsEmpty
  else
    match hget L.heap L.tail with
    | none => .ub
    | some tl =>
      match tl.prev with
      | none => .ub
      | some last =>
        match hget L.heap last with
        | none => .ub
        | some nd =>
          match nd.val with
          | none => .ub
          | some v => .ok L v

/-- `list::empty()`. -/
def emptyOp (L : ListS α) : Bool := L.n == 0

/-- `list::size()`. -/
def sizeOp (L : ListS α) : Nat := L.n

/-- The loop of `list::clear()`: walk `cur` from `head->next`,
clearing links and deleting each node until `tail`.  `fuel` bounds
the walk (a consistent chain never exhausts it). -/
def clearLoop (t : Nat) : Nat → Heap α → Option Nat → Option (Heap α)
  | _, _, none => none
  | 0, _, some _ => none
  | fuel + 1, h, some c =>
    if c = t then some h
    else
      match hget h c with
      | none => none
      | some nd =>
        clearLoop t fuel (hdel (hset h c { nd with prev := none, next := none }) c) nd.next

/-- `list::clear()`: delete all data nodes, relink the sentinels to
each other, reset the count. -/
def clearOp (L : ListS α) : Option (ListS α) :=
  match hget L.heap L.head with
  | none => none
  | some hd =>
    match clearLoop L.tail (L.heap.length + 1) L.heap hd.next with
    | none => none
    | some h1 =>
      match hget h1 L.head with
      | none => none
      | some hd1 =>
        let h2 := hset h1 L.head { hd1 with next := some L.tail }
        match hget h2 L.tail with
        | none => none
        | some tl2 =>
          some { L with heap := hset h2 L.tail { tl2 with prev := some L.head }, n := 0 }

/-- Walk the chain from a node to `tail` collecting the stored
values (the iteration `for (it = cbegin(); it != cend(); ++it)`). -/
def elemsLoop (t : Nat) (h : Heap α) : Nat → Option Nat → Option (List α)
  | _, none => none
  | 0, some _ => none
  | fuel + 1, some c =>
    if c = t then some []
    else
      match hget h c with
      | none => none
      | some nd =>
        match nd.val with
        | none => none
        | some v =>
          match elemsLoop t h fuel nd.next with
          | none => none
          | some vs => some (v :: vs)

/-- The element sequence of a list, read off its chain. -/
def listElems (L : ListS α) : Option (List α) :=
  match hget L.heap L.head with
  | none => none
  | some hd => elemsLoop L.tail L.heap (L.heap.length + 1) hd.next

/-- `push_back` of every value in order. -/
def pushAll : ListS α → List α → Option (ListS α)
  | L, [] => some L
  | L, v :: vs =>
    match pushBack L v with
    | .ok L1 _ => pushAll L1 vs
    | _ => none

/-- `list::operator=(other)`: the self-assignment guard
(`this == &other`, modelled by `sameObject`), then `clear()` and a
deep copy of the source's element sequence via `push_back`. -/
def assignOp (sameObject : Bool) (dst src : ListS α) : Option (ListS α) :=
  if sameObject then some dst
  else
    match clearOp dst with
    | none => none
    | some d1 =>
      match listElems src with
      | none => none
      | some vs => pushAll d1 vs

/-- The loop of `list::reverse()`: swap `prev`/`next` of every node
walking from `head`; the loop variable then moves to the original
`next`, which after the swap is `cur->prev`. -/
def revLoop : Nat → Heap α → Option Nat → Option (Heap α)
  | _, h, none => some h
  | 0, _, some _ => none
  | fuel + 1, h, some c =>
    match hget h c with
    | none => none
    | some nd =>
      revLoop fuel (hset h c { nd with next := nd.prev, prev := nd.next }) nd.next

/-- `list::reverse()`: run the swap loop, then swap the `head` and
`tail` fields. -/
def reverseOp (L : ListS α) : Option (ListS α) :=
  match revLoop (L.heap.length + 1) L.heap (some L.head) with
  | none => none
  | some h1 => some { L with heap := h1, head := L.tail, tail := L.head }

/-- The values stored at a sequence of addresses. -/
def elemsAt (h : Heap α) (ids : List Nat) : List α :=
  ids.filterMap fun i => (hget h i).bind Node.val

/-- `a` and `b` are adjacent in the chain: `a->next == b` and
`b->prev == a`. -/
abbrev linked (h : Heap α) (a b : Nat) : Prop :=
  (hget h a).bind Node.next = some b ∧ (hget h b).bind Node.prev = some a

/-- Well-formedness of a list state: `ids` are the addresses of the
data nodes in chain order; the chain
`head :: ids ++ [tail]` is doubly linked, all addresses are distinct
and are exactly the allocated ones, the sentinels carry no value,
`head->prev` and `tail->next` are null, each data node stores a
value, the count matches, and every address is below `fresh`. -/
abbrev Spine (L : ListS α) (ids : List Nat) : Prop :=
  List.Chain' (linked L.heap) (L.head :: ids ++ [L.tail]) ∧
  (L.head :: ids ++ [L.tail]).Nodup ∧
  (∀ k ∈ keys L.heap, k ∈ L.head :: ids ++ [L.tail]) ∧
  (∀ k ∈ L.head :: ids ++ [L.tail], k ∈ keys L.heap) ∧
  (keys L.heap).Nodup ∧
  (hget L.heap L.head).map Node.prev = some none ∧
  (hget L.heap L.head).map Node.val = some none ∧
  (hget L.heap L.tail).map Node.next = some none ∧
  (hget L.heap L.tail).map Node.val = some none ∧
  (∀ i ∈ ids, ((hget L.heap i).bind Node.val).isSome = true) ∧
  L.n = ids.length ∧
  (∀ k ∈ keys L.heap, k < L.fresh)

/-- A push/pop operation (for the size/emptiness invariant). -/
inductive Op (α : Type) where
  | pushB : α → Op α
  | pushF : α → Op α
  | popB : Op α
  | popF : Op α
deriving DecidableEq, Repr

/-- Apply one push/pop operation. -/
def applyOp (L : ListS α) : Op α → Out (ListS α) Unit
  | .pushB v => pushBack L v
  | .pushF v => pushFront L v
  | .popB => popBack L
  | .popF => popFront L

/-- Run a sequence of push/pop operations; `none` when one of them
throws (a pop on an empty list) or hits undefined behaviour. -/
def runOps : ListS α → List (Op α) → Option (ListS α)
  | L, [] => some L
  | L, o :: os =>
    match applyOp L o with
    | .ok L1 _ => runOps L1 os
    | _ => none

/-- Number of pushes in an operation sequence. -/
def countPush : List (Op α) → Nat
  | [] => 0
  | .pushB _ :: os => countPush os + 1
  | .pushF _ :: os => countPush os + 1
  | .popB :: os => countPush os
  | .popF :: os => countPush os

/-- Number of pops in an operation sequence. -/
def countPop : List (Op α) → Nat
  | [] => 0
  | .pushB _ :: os => countPop os
  | .pushF _ :: os => countPop os
  | .popB :: os => countPop os + 1
  | .popF :: os => countPop os + 1

/-- A failed operation left the state exactly as it was: the outcome
is either not an exception, or an exception carrying the unchanged
starting state. -/
def errState {σ β : Type} (s0 : σ) : Out σ β → Prop
  | .err s _ => s = s0
  | _ => True

/-- Swap the two links of a node (one step of `reverse`). -/
def swapNode (nd : Node α) : Node α := ⟨nd.next, nd.prev, nd.val⟩

/-- Swap the links of the nodes at `xs`, reading the original nodes
from `read` and updating `acc` (the unrolled effect of the reverse
loop). -/
def swapAll (read : Heap α) (acc : Heap α) (xs : List Nat) : Heap α :=
  xs.foldl (fun a c =>
    match hget read c with
    | some nd => hset a c (swapNode nd)
    | none => a) acc

/-- The walk of the reverse (and clear) loops: from node `c`, the
successor chain passes exactly through `xs` and ends at a null
pointer. -/
inductive NextPath (h : Heap α) : Option Nat → List Nat → Prop where
  | nil : NextPath h none []
  | cons {c : Nat} {nd : Node α} {rest : List Nat} :
      hget h c = some nd → NextPath h nd.next rest →
      NextPath h (some c) (c :: rest)

/-- A concrete one-element list holding `5`: the state reached by
`push_back(5)` on a freshly constructed list (object identity 0). -/
def oneList : ListS Nat :=
  ⟨0, [(0, ⟨none, some 2, none⟩), (1, ⟨some 2, none, none⟩),
    (2, ⟨some 0, some 1, some 5⟩)], 0, 1, 1, 3⟩

/-- Success contract of `erase`: the call returns normally, the
returned iterator is `follower`, the remaining spine is `ids'` (with
all remaining values unchanged and in order), the count dropped by
one, and the erased node `gone` is deallocated. -/
def eraseOk (L : ListS α) (pos follower : Iter) (ids' : List Nat)
    (gone : Nat) : Prop :=
  match eraseOp L pos with
  | .ok L' it =>
    it = follower ∧ Spine L' ids' ∧ L'.n = L.n - 1 ∧
    hget L'.heap gone = none ∧ elemsAt L'.heap ids' = elemsAt L.heap ids'
  | _ => False

/-- Contract of `reverse()` on a list whose data-node spine is `ids`:
the call reverses the element sequence without copying or moving any
element (same addresses, same stored values, links swapped in place),
and a second `reverse()` restores the original order and original
node identities, so an iterator taken before the two reversals still
dereferences to the same value afterwards. -/
def reverseOk (L : ListS α) (ids : List Nat) : Prop :=
  match reverseOp L with
  | some L1 =>
    Spine L1 ids.reverse ∧
    elemsAt L1.heap ids.reverse = (elemsAt L.heap ids).reverse ∧
    keys L1.heap = keys L.heap ∧
    match reverseOp L1 with
    | some L2 =>
      L2.self = L.self ∧ L2.head = L.head ∧ L2.tail = L.tail ∧
      L2.n = L.n ∧ L2.fresh = L.fresh ∧
      (∀ k, hget L2.heap k = hget L.heap k) ∧
      (∀ it : Iter, derefIt L2 it = derefIt L it)
    | none => False
  | none => False

/- ================================================================
   Theorems.
   ================================================================ -/

theorem mergeRun_eq_append (lt : α → α → Bool) :
    ∀ done as bs, mergeRun lt done as bs = done ++ mergeCore lt as bs
  | done, as, [] => by simp [mergeRun, mergeCore]
  | done, [], b :: bs => by
    rw [mergeRun, mergeCore, mergeRun_eq_append lt (done ++ [b]) [] bs]
    simp
  | done, a :: as, b :: bs => by
    rw [mergeRun, mergeCore]
    by_cases h : lt b a
    · rw [if_pos h, if_pos h, mergeRun_eq_append lt (done ++ [b]) (a :: as) bs]
      simp
    · rw [if_neg h, if_neg h, mergeRun_eq_append lt (done ++ [a]) as (b :: bs)]
      simp
termination_by _ as bs => as.length + bs.length

example : mergeCore (fun a b : Nat => decide (a < b)) [1, 3, 5] [2, 3, 4] =
    [1, 2, 3, 3, 4, 5] := by simp [mergeCore]

theorem mergeCore_perm (lt : α → α → Bool) :
    ∀ as bs, List.Perm (mergeCore lt as bs) (as ++ bs)
  | as, [] => by simp [mergeCore]
  | [], b :: bs => by
    rw [mergeCore]
    exact ((mergeCore_perm lt [] bs).cons b)
  | a :: as, b :: bs => by
    rw [mergeCore]
    by_cases h : lt b a
    · rw [if_pos h]
      exact ((mergeCore_perm lt (a :: as) bs).cons b).trans
        (List.perm_middle).symm
    · rw [if_neg h]
      exact ((mergeCore_perm lt as (b :: bs)).cons a)
termination_by as bs => as.length + bs.length

theorem mem_mergeCore {lt : α → α → Bool} {as bs : List α} {x : α} :
    x ∈ mergeCore lt as bs ↔ x ∈ as ∨ x ∈ bs := by
  rw [(mergeCore_perm lt as bs).mem_iff, List.mem_append]

/-- Elements satisfying `p` come only from `as`; filtering the merge by `p`
recovers `as` in its original order. -/
theorem mergeCore_filter_pos (lt : α → α → Bool) (p : α → Bool) :
    ∀ as bs, (∀ x ∈ as, p x = true) → (∀ x ∈ bs, p x = false) →
      (mergeCore lt as bs).filter p = as
  | as, [], ha, _ => by
    rw [mergeCore]
    exact List.filter_eq_self.mpr ha
  | [], b :: bs, ha, hb => by
    rw [mergeCore, List.filter_cons_of_neg]
    · exact mergeCore_filter_pos lt p [] bs ha fun x hx => hb x (List.mem_cons_of_mem b hx)
    · simp [hb b (List.mem_cons_self b bs)]
  | a :: as, b :: bs, ha, hb => by
    rw [mergeCore]
    by_cases h : lt b a
    · rw [if_pos h, List.filter_cons_of_neg]
      · exact mergeCore_filter_pos lt p (a :: as) bs ha
          fun x hx => hb x (List.mem_cons_of_mem b hx)
      · simp [hb b (List.mem_cons_self b bs)]
    · rw [if_neg h, List.filter_cons_of_pos]
      · rw [mergeCore_filter_pos lt p as (b :: bs)
          (fun x hx => ha x (List.mem_cons_of_mem a hx)) hb]
      · simp [ha a (List.mem_cons_self a as)]
termination_by as bs => as.length + bs.length

/-- Elements satisfying `p` come only from `bs`; filtering the merge by `p`
recovers `bs` in its original order. -/
theorem mergeCore_filter_neg (lt : α → α → Bool) (p : α → Bool) :
    ∀ as bs, (∀ x ∈ as, p x = false) → (∀ x ∈ bs, p x = true) →
      (mergeCore lt as bs).filter p = bs
  | as, [], ha, _ => by
    rw [mergeCore]
    exact List.filter_eq_nil_iff.mpr fun x hx => by simp [ha x hx]
  | [], b :: bs, ha, hb => by
    rw [mergeCore, List.filter_cons_of_pos]
    · rw [mergeCore_filter_neg lt p [] bs ha
        fun x hx => hb x (List.mem_cons_of_mem b hx)]
    · simp [hb b (List.mem_cons_self b bs)]
  | a :: as, b :: bs, ha, hb => by
    rw [mergeCore]
    by_cases h : lt b a
    · rw [if_pos h, List.filter_cons_of_pos]
      · rw [mergeCore_filter_neg lt p (a :: as) bs ha
          fun x hx => hb x (List.mem_cons_of_mem b hx)]
      · simp [hb b (List.mem_cons_self b bs)]
    · rw [if_neg h, List.filter_cons_of_neg]
      · exact mergeCore_filter_neg lt p as (b :: bs)
          (fun x hx => ha x (List.mem_cons_of_mem a hx)) hb
      · simp [ha a (List.mem_cons_self a as)]
termination_by as bs => as.length + bs.length

/-- The merge of two ascending sequences is ascending, for any Boolean
comparison `lt` compatible with a transitive `le`. -/
theorem mergeCore_sorted {le : α → α → Prop} (lt : α → α → Bool)
    (htrans : Transitive le)
    (hpos : ∀ a b, lt b a = true → le b a)
    (hneg : ∀ a b, lt b a = false → le a b) :
    ∀ as bs, as.Pairwise le → bs.Pairwise le →
      (mergeCore lt as bs).Pairwise le
  | as, [], ha, _ => by rw [mergeCore]; exact ha
  | [], b :: bs, _, hb => by
    rw [mergeCore, List.pairwise_cons]
    rw [List.pairwise_cons] at hb
    refine ⟨fun y hy => ?_, mergeCore_sorted lt htrans hpos hneg [] bs
      (List.Pairwise.nil) hb.2⟩
    rcases mem_mergeCore.mp hy with h | h
    · exact absurd h (List.not_mem_nil y)
    · exact hb.1 y h
  | a :: as, b :: bs, ha, hb => by
    rw [mergeCore]
    rw [List.pairwise_cons] at ha hb
    by_cases h : lt b a
    · rw [if_pos h, List.pairwise_cons]
      refine ⟨fun y hy => ?_, mergeCore_sorted lt htrans hpos hneg (a :: as) bs
        (List.pairwise_cons.mpr ha) hb.2⟩
      rcases mem_mergeCore.mp hy with hya | hyb
      · rcases List.mem_cons.mp hya with rfl | hya
        · exact hpos y b h
        · exact htrans (hpos a b h) (ha.1 y hya)
      · exact hb.1 y hyb
    · rw [if_neg h, List.pairwise_cons]
      refine ⟨fun y hy => ?_, mergeCore_sorted lt htrans hpos hneg as (b :: bs)
        ha.2 (List.pairwise_cons.mpr hb)⟩
      rcases mem_mergeCore.mp hy with hya | hyb
      · exact ha.1 y hya
      · rcases List.mem_cons.mp hyb with rfl | hyb
        · exact hneg a y (Bool.eq_false_iff.mpr h)
        · exact htrans (hneg a b (Bool.eq_false_iff.mpr h)) (hb.1 y hyb)
termination_by as bs => as.length + bs.length

/-- Tie-breaking of `list::merge`: in the merged sequence, no element
from `other` (tag `true`) stands before an equal-valued element from
`this` (tag `false`). -/
theorem mergeCore_ties :
    ∀ as bs : List Tagged,
      as.Pairwise (fun x y => x.1 ≤ y.1) →
      (∀ x ∈ as, x.2 = false) → (∀ x ∈ bs, x.2 = true) →
      (mergeCore ltv as bs).Pairwise
        (fun x y => ¬(x.2 = true ∧ y.2 = false ∧ x.1 = y.1))
  | as, [], _, ha, _ => by
    rw [mergeCore]
    exact List.pairwise_of_forall_mem_list fun x hx y _ h =>
      by rw [ha x hx] at h; exact Bool.false_ne_true h.1
  | [], b :: bs, hs, ha, hb => by
    rw [mergeCore, List.pairwise_cons]
    refine ⟨fun y hy h => ?_, mergeCore_ties [] bs hs ha
      fun x hx => hb x (List.mem_cons_of_mem b hx)⟩
    rcases mem_mergeCore.mp hy with hmem | hmem
    · exact absurd hmem (List.not_mem_nil y)
    · rw [hb y (List.mem_cons_of_mem b hmem)] at h
      exact absurd h.2.1 (by decide)
  | a :: as, b :: bs, hs, ha, hb => by
    rw [mergeCore]
    rw [List.pairwise_cons] at hs
    by_cases h : ltv b a
    · rw [if_pos h, List.pairwise_cons]
      have hblt : b.1 < a.1 := of_decide_eq_true h
      refine ⟨fun y hy hc => ?_, mergeCore_ties (a :: as) bs
        (List.pairwise_cons.mpr hs) ha
        fun x hx => hb x (List.mem_cons_of_mem b hx)⟩
      rcases mem_mergeCore.mp hy with hya | hyb
      · have hav : a.1 ≤ y.1 := by
          rcases List.mem_cons.mp hya with rfl | hya
          · exact le_refl _
          · exact hs.1 y hya
        exact absurd hc.2.2 (Nat.ne_of_lt (Nat.lt_of_lt_of_le hblt hav))
      · rw [hb y (List.mem_cons_of_mem b hyb)] at hc
        exact absurd hc.2.1 (by decide)
    · rw [if_neg h, List.pairwise_cons]
      refine ⟨fun y hy hc => ?_, mergeCore_ties as (b :: bs) hs.2
        (fun x hx => ha x (List.mem_cons_of_mem a hx)) hb⟩
      rw [ha a (List.mem_cons_self a as)] at hc
      exact Bool.false_ne_true hc.1
termination_by as bs => as.length + bs.length

example : uniqueOp (fun a b : Nat => a == b) [1, 1, 2, 2, 2, 3, 1] =
    [1, 2, 3, 1] := by simp [uniqueOp, uniqueCore, List.dropWhile]

theorem destutter'_eq_uniqueCore [DecidableEq α] (eqb : α → α → Bool)
    (heq : ∀ a b, eqb a b = true ↔ a = b) :
    ∀ (l : List α) (c : α),
      List.destutter' (· ≠ ·) c l = c :: uniqueCore eqb (l.dropWhile (eqb c)) := by
  intro l
  induction l with
  | nil =>
    intro c
    rw [List.destutter'_nil, List.dropWhile_nil, uniqueCore]
  | cons h t ih =>
    intro c
    by_cases hch : c = h
    · have hb : eqb c h = true := (heq c h).mpr hch
      rw [List.destutter'_cons_neg t (fun hne => hne hch),
        List.dropWhile_cons_of_pos hb]
      exact ih c
    · have hb : eqb c h = false :=
        Bool.eq_false_iff.mpr fun ht => hch ((heq c h).mp ht)
      rw [List.destutter'_cons_pos t hch,
        List.dropWhile_cons_of_neg (by simp [hb]), uniqueCore, ih h]

theorem uniqueCore_eq_destutter [DecidableEq α] (eqb : α → α → Bool)
    (heq : ∀ a b, eqb a b = true ↔ a = b) (l : List α) :
    uniqueCore eqb l = List.destutter (· ≠ ·) l := by
  cases l with
  | nil => rw [uniqueCore, List.destutter_nil]
  | cons c t =>
    rw [uniqueCore, List.destutter_cons', destutter'_eq_uniqueCore eqb heq t c]

theorem length_destutter'_runs [DecidableEq α] :
    ∀ (t : List α) (a : α),
      (List.destutter' (· ≠ ·) a t).length = runsCount (a :: t) := by
  intro t
  induction t with
  | nil => intro a; rw [List.destutter'_nil, runsCount]; rfl
  | cons b t' ih =>
    intro a
    by_cases hab : a = b
    · rw [List.destutter'_cons_neg t' (fun hne => hne hab), runsCount, if_pos hab,
        Nat.zero_add, ih a, hab]
    · rw [List.destutter'_cons_pos t' hab,
        List.length_cons, runsCount, if_neg hab, ih b, Nat.add_comm]

/- ----- Heap toolkit ----- -/

theorem hget_hset_ne {j i : Nat} (h : Heap α) (nd : Node α) (hne : j ≠ i) :
    hget (hset h i nd) j = hget h j := by
  induction h with
  | nil => rfl
  | cons e t ih =>
    by_cases he : e.1 = i
    · rw [hset, if_pos he, hget, if_neg (fun hij => hne hij.symm), ih, hget,
        if_neg (fun hej : e.1 = j => hne (hej ▸ he ▸ rfl))]
    · rw [hset, if_neg he, hget, hget]
      by_cases hej : e.1 = j
      · rw [if_pos hej, if_pos hej]
      · rw [if_neg hej, if_neg hej, ih]

theorem hget_hset_self (h : Heap α) (i : Nat) (nd : Node α) :
    hget (hset h i nd) i = (hget h i).map fun _ => nd := by
  induction h with
  | nil => rfl
  | cons e t ih =>
    by_cases he : e.1 = i
    · rw [hset, if_pos he, hget, if_pos rfl, hget, if_pos he, Option.map_some']
    · rw [hset, if_neg he, hget, if_neg he, hget, if_neg he, ih]

theorem hget_hdel_self (h : Heap α) (i : Nat) : hget (hdel h i) i = none := by
  induction h with
  | nil => rfl
  | cons e t ih =>
    by_cases he : e.1 = i
    · rw [hdel, if_pos he, ih]
    · rw [hdel, if_neg he, hget, if_neg he, ih]

theorem hget_hdel_ne {j i : Nat} (h : Heap α) (hne : j ≠ i) :
    hget (hdel h i) j = hget h j := by
  induction h with
  | nil => rfl
  | cons e t ih =>
    by_cases he : e.1 = i
    · rw [hdel, if_pos he, ih, hget,
        if_neg (fun hej : e.1 = j => hne (hej ▸ he ▸ rfl))]
    · rw [hdel, if_neg he, hget, hget]
      by_cases hej : e.1 = j
      · rw [if_pos hej, if_pos hej]
      · rw [if_neg hej, if_neg hej, ih]

theorem keys_hset (h : Heap α) (i : Nat) (nd : Node α) :
    keys (hset h i nd) = keys h := by
  induction h with
  | nil => rfl
  | cons e t ih =>
    by_cases he : e.1 = i
    · simp only [hset, if_pos he, keys, List.map_cons] at *
      rw [ih, he]
    · simp only [hset, if_neg he, keys, List.map_cons] at *
      rw [ih]

theorem keys_hdel_sublist (h : Heap α) (i : Nat) :
    List.Sublist (keys (hdel h i)) (keys h) := by
  induction h with
  | nil => exact List.Sublist.refl _
  | cons e t ih =>
    by_cases he : e.1 = i
    · rw [hdel, if_pos he]
      exact ih.trans (List.sublist_cons_self _ _)
    · rw [hdel, if_neg he]
      exact ih.cons₂ _

theorem mem_keys_cons {e : Nat × Node α} {t : Heap α} {k : Nat} :
    k ∈ keys (e :: t) ↔ k = e.1 ∨ k ∈ keys t := by
  simp [keys]

theorem mem_keys_hdel {h : Heap α} {i k : Nat} :
    k ∈ keys (hdel h i) ↔ k ∈ keys h ∧ k ≠ i := by
  induction h with
  | nil => simp [hdel, keys]
  | cons e t ih =>
    by_cases he : e.1 = i
    · rw [hdel, if_pos he, ih, mem_keys_cons]
      constructor
      · exact fun hk => ⟨Or.inr hk.1, hk.2⟩
      · rintro ⟨hk | hk, hne⟩
        · exact absurd (hk ▸ he) hne
        · exact ⟨hk, hne⟩
    · rw [hdel, if_neg he, mem_keys_cons, mem_keys_cons, ih]
      constructor
      · rintro (hk | hk)
        · exact ⟨Or.inl hk, fun hki => he (hk ▸ hki ▸ rfl)⟩
        · exact ⟨Or.inr hk.1, hk.2⟩
      · rintro ⟨hk | hk, hne⟩
        · exact Or.inl hk
        · exact Or.inr ⟨hk, hne⟩

theorem mem_keys_iff_isSome {h : Heap α} {k : Nat} :
    k ∈ keys h ↔ (hget h k).isSome = true := by
  induction h with
  | nil => simp [keys, hget]
  | cons e t ih =>
    rw [mem_keys_cons, hget]
    by_cases he : e.1 = k
    · simp [he]
    · rw [if_neg he, ih]
      constructor
      · rintro (hk | hk)
        · exact absurd hk.symm he
        · exact hk
      · exact Or.inr

theorem hget_eq_none_of_not_mem {h : Heap α} {k : Nat} (hk : k ∉ keys h) :
    hget h k = none := by
  rcases ho : hget h k with _ | nd
  · rfl
  · exact absurd (mem_keys_iff_isSome.mpr (by rw [ho]; rfl)) hk

theorem hget_append_left {h h2 : Heap α} {k : Nat} {nd : Node α}
    (hk : hget h k = some nd) : hget (h ++ h2) k = some nd := by
  induction h with
  | nil => exact absurd hk (by rw [hget]; exact Option.noConfusion)
  | cons e t ih =>
    rw [hget] at hk
    rw [List.cons_append, hget]
    by_cases he : e.1 = k
    · rw [if_pos he] at hk ⊢
      exact hk
    · rw [if_neg he] at hk ⊢
      exact ih hk

theorem hget_append_right {h h2 : Heap α} {k : Nat}
    (hk : hget h k = none) : hget (h ++ h2) k = hget h2 k := by
  induction h with
  | nil => rfl
  | cons e t ih =>
    rw [hget] at hk
    rw [List.cons_append, hget]
    by_cases he : e.1 = k
    · rw [if_pos he] at hk
      exact absurd hk Option.noConfusion
    · rw [if_neg he] at hk ⊢
      exact ih hk

theorem keys_append (h h2 : Heap α) : keys (h ++ h2) = keys h ++ keys h2 :=
  List.map_append _ _ _

theorem linked_congr {h hx : Heap α} {a b : Nat}
    (ha : hget hx a = hget h a) (hb : hget hx b = hget h b) :
    linked hx a b ↔ linked h a b := by
  unfold linked
  rw [ha, hb]

theorem getLast?_cons_eq : ∀ (l : List α) (a : α),
    (a :: l).getLast? = some (l.getLastD a)
  | [], _ => rfl
  | b :: t, a => by
    rw [List.getLast?_cons_cons, getLast?_cons_eq t b, List.getLastD_cons]

theorem head?_append_single (r : List α) (t : α) :
    (r ++ [t]).head? = some (r.headD t) := by
  cases r <;> rfl

theorem getLastD_mem_cons : ∀ (l : List α) (a : α), l.getLastD a ∈ a :: l
  | [], _ => List.mem_cons_self _ _
  | b :: t, a => by
    rw [List.getLastD_cons]
    exact List.mem_cons_of_mem a (getLastD_mem_cons t b)

theorem headD_mem_append (r : List α) (t : α) : r.headD t ∈ r ++ [t] := by
  cases r with
  | nil => exact List.mem_cons_self _ _
  | cons x xs => exact List.mem_cons_self _ _

/-- Symbolic evaluation of protected `erase` at a chain-interior node:
the result is three in-place updates. -/
theorem unlink_eval {h : Heap α} {q pp qq : Nat} {nq npp nqq : Node α}
    (hq : hget h q = some nq) (hqp : nq.prev = some pp) (hqn : nq.next = some qq)
    (hpp : hget h pp = some npp) (hqq : hget h qq = some nqq)
    (hpq : pp ≠ q) (hqqq : qq ≠ q) (hppqq : pp ≠ qq) :
    unlink h q = some (hset (hset (hset h pp { npp with next := some qq }) qq
      { nqq with prev := some pp }) q { nq with prev := none, next := none }) := by
  have h1q : hget (hset h pp { npp with next := some qq }) q = some nq := by
    rw [hget_hset_ne h _ (fun hx => hpq hx.symm), hq]
  have h1qq : hget (hset h pp { npp with next := some qq }) qq = some nqq := by
    rw [hget_hset_ne h _ (fun hx => hppqq hx.symm), hqq]
  have h2q : hget (hset (hset h pp { npp with next := some qq }) qq
      { nqq with prev := some pp }) q = some nq := by
    rw [hget_hset_ne _ _ (fun hx => hqqq hx.symm), h1q]
  simp only [unlink, hq, hqp, hqn, hpp, h1q, h1qq, h2q]

/-- Symbolic evaluation of protected `insert` (link `cur` before
`pos`): the result is three in-place updates. -/
theorem linkBefore_eval {h : Heap α} {pos cur pp : Nat} {posN curN ppN : Node α}
    (hpos : hget h pos = some posN) (hcur : hget h cur = some curN)
    (hprev : posN.prev = some pp) (hpp : hget h pp = some ppN)
    (hcp : cur ≠ pp) (hcpos : cur ≠ pos) (hpppos : pp ≠ pos) :
    linkBefore h pos cur = some (hset (hset (hset h cur
      { curN with next := some pos, prev := some pp }) pp
      { ppN with next := some cur }) pos { posN with prev := some cur }) := by
  have h1pp : hget (hset h cur { curN with next := some pos, prev := some pp }) pp
      = some ppN := by
    rw [hget_hset_ne h _ (fun hx => hcp hx.symm), hpp]
  have h2pos : hget (hset (hset h cur { curN with next := some pos, prev := some pp })
      pp { ppN with next := some cur }) pos = some posN := by
    rw [hget_hset_ne _ _ (fun hx => hpppos hx.symm),
      hget_hset_ne h _ (fun hx => hcpos hx.symm), hpos]
  simp only [linkBefore, hpos, hcur, hprev, h1pp, h2pos]
theorem linked_congr2 {h hx : Heap α} {a b : Nat}
    (ha : (hget hx a).bind Node.next = (hget h a).bind Node.next)
    (hb : (hget hx b).bind Node.prev = (hget h b).bind Node.prev) :
    linked hx a b ↔ linked h a b := by
  unfold linked
  rw [ha, hb]

theorem chain'_imp_mem {β : Type} {R S : β → β → Prop} :
    ∀ {xs : List β}, (∀ a b, a ∈ xs → b ∈ xs → R a b → S a b) →
      List.Chain' R xs → List.Chain' S xs
  | [], _, _ => List.chain'_nil
  | [_], _, _ => List.chain'_singleton _
  | a :: b :: t, himp, hc => by
    rw [List.chain'_cons] at hc ⊢
    refine ⟨himp a b (List.mem_cons_self _ _)
      (List.mem_cons_of_mem _ (List.mem_cons_self _ _)) hc.1, ?_⟩
    exact chain'_imp_mem
      (fun x y hx hy => himp x y (List.mem_cons_of_mem _ hx) (List.mem_cons_of_mem _ hy))
      hc.2

theorem map_field_none {h : Heap α} {k : Nat} {f : Node α → Option Nat}
    (hs : (hget h k).isSome = true) (hb : (hget h k).bind f = none) :
    (hget h k).map f = some none := by
  rcases ho : hget h k with _ | nd
  · rw [ho] at hs
    exact absurd hs (by simp)
  · rw [ho] at hb
    simp only [ho] at *
    simp_all

theorem bind_none_of_map {o : Option β} {f : β → Option γ}
    (h : o.map f = some none) : o.bind f = none := by
  cases o <;> simp_all

theorem bind_congr_of_map {o ox : Option β} {f : β → Option γ}
    (h : ox.map f = o.map f) : ox.bind f = o.bind f := by
  cases o <;> cases ox <;> simp_all

/-- Unlinking and deallocating a data node `q` of a well-formed chain
(`erase(pos.p); delete pos.p; --n;`): the invariant is preserved on
the remaining chain, values elsewhere are untouched, `q` is gone, and
`q`'s successor is the first node of `r` (or the tail sentinel). -/
theorem unlink_spine {L : ListS α} {l r : List Nat} {q : Nat}
    (hS : Spine L (l ++ q :: r)) :
    ∃ h3,
      unlink L.heap q = some h3 ∧
      Spine { L with heap := hdel h3 q, n := L.n - 1 } (l ++ r) ∧
      (∀ k, k ≠ q →
        (hget (hdel h3 q) k).map Node.val = (hget L.heap k).map Node.val) ∧
      hget (hdel h3 q) q = none ∧
      (hget L.heap q).bind Node.next = some (r.headD L.tail) := by
  obtain ⟨hchain, hnodup, hk1, hk2, hknd, hhp, hhv, htn, htv, hdata, hcount, hfresh⟩ := hS
  have hshape : L.head :: (l ++ q :: r) ++ [L.tail]
      = (L.head :: l) ++ q :: (r ++ [L.tail]) := by simp
  rw [hshape] at hchain hnodup
  simp only [hshape] at hk1 hk2
  have hnodup0 := hnodup
  set pp := l.getLastD L.head with hppdef
  set qq := r.headD L.tail with hqqdef
  rw [List.chain'_split] at hchain
  obtain ⟨hc1, hc2⟩ := hchain
  have hppq : linked L.heap pp q :=
    (List.chain'_append.mp hc1).2.2 pp (by rw [getLast?_cons_eq]; rfl) q rfl
  have hcl : List.Chain' (linked L.heap) (L.head :: l) := (List.chain'_append.mp hc1).1
  rw [List.chain'_cons'] at hc2
  have hqlink : linked L.heap q qq := hc2.1 qq (by rw [head?_append_single]; rfl)
  have hcr : List.Chain' (linked L.heap) (r ++ [L.tail]) := hc2.2
  rw [List.nodup_append] at hnodup
  obtain ⟨ndl, ndqr, hdisj⟩ := hnodup
  rw [List.nodup_cons] at ndqr
  obtain ⟨hqnotin, ndr⟩ := ndqr
  have hppmem : pp ∈ L.head :: l := getLastD_mem_cons l L.head
  have hqqmem : qq ∈ r ++ [L.tail] := headD_mem_append r L.tail
  have hppq_ne : pp ≠ q := by
    intro he
    apply List.disjoint_left.mp hdisj hppmem
    rw [he]
    exact List.mem_cons_self _ _
  have hqq_ne : qq ≠ q := fun he => hqnotin (he ▸ hqqmem)
  have hppqq_ne : pp ≠ qq := by
    intro he
    exact (List.disjoint_left.mp hdisj hppmem)
      (List.mem_cons_of_mem q (he.symm ▸ hqqmem))
  obtain ⟨nq, hq, hqn⟩ := Option.bind_eq_some.mp hqlink.1
  have hqp : nq.prev = some pp := by
    obtain ⟨nq2, hq2, hqp2⟩ := Option.bind_eq_some.mp hppq.2
    rw [hq] at hq2
    exact (Option.some.inj hq2).symm ▸ hqp2
  obtain ⟨npp, hpp, hppn⟩ := Option.bind_eq_some.mp hppq.1
  obtain ⟨nqq, hqq, hqqp⟩ := Option.bind_eq_some.mp hqlink.2
  have heval := unlink_eval hq hqp hqn hpp hqq hppq_ne hqq_ne hppqq_ne
  set h3 := hset (hset (hset L.heap pp { npp with next := some qq }) qq
    { nqq with prev := some pp }) q { nq with prev := none, next := none } with h3def
  set hF := hdel h3 q with hFdef
  have hF_q : hget hF q = none := hget_hdel_self _ _
  have hF_pp : hget hF pp = some { npp with next := some qq } := by
    rw [hFdef, hget_hdel_ne _ hppq_ne, h3def,
      hget_hset_ne _ _ hppq_ne, hget_hset_ne _ _ hppqq_ne, hget_hset_self, hpp]
    rfl
  have hF_qq : hget hF qq = some { nqq with prev := some pp } := by
    rw [hFdef, hget_hdel_ne _ hqq_ne, h3def, hget_hset_ne _ _ hqq_ne,
      hget_hset_self, hget_hset_ne _ _ (fun he => hppqq_ne he.symm), hqq]
    rfl
  have hF_other : ∀ k, k ≠ q → k ≠ pp → k ≠ qq → hget hF k = hget L.heap k := by
    intro k hkq hkpp hkqq
    rw [hFdef, hget_hdel_ne _ hkq, h3def, hget_hset_ne _ _ hkq,
      hget_hset_ne _ _ hkqq, hget_hset_ne _ _ hkpp]
  have hFval : ∀ k, k ≠ q →
      (hget hF k).map Node.val = (hget L.heap k).map Node.val := by
    intro k hkq
    by_cases hkpp : k = pp
    · subst hkpp
      rw [hF_pp, hpp]
      rfl
    · by_cases hkqq : k = qq
      · subst hkqq
        rw [hF_qq, hqq]
        rfl
      · rw [hF_other k hkq hkpp hkqq]
  have hFnext : ∀ k, k ≠ q → k ≠ pp →
      (hget hF k).bind Node.next = (hget L.heap k).bind Node.next := by
    intro k hkq hkpp
    by_cases hkqq : k = qq
    · subst hkqq
      rw [hF_qq, hqq]
      rfl
    · rw [hF_other k hkq hkpp hkqq]
  have hFprev : ∀ k, k ≠ q → k ≠ qq →
      (hget hF k).bind Node.prev = (hget L.heap k).bind Node.prev := by
    intro k hkq hkqq
    by_cases hkpp : k = pp
    · subst hkpp
      rw [hF_pp, hpp]
      rfl
    · rw [hF_other k hkq hkpp hkqq]
  have hkeysF : ∀ k, k ∈ keys hF ↔ (k ∈ keys L.heap ∧ k ≠ q) := by
    intro k
    rw [hFdef, mem_keys_hdel, h3def, keys_hset, keys_hset, keys_hset]
  have hkndF : (keys hF).Nodup := by
    rw [hFdef]
    refine List.Nodup.sublist (keys_hdel_sublist _ _) ?_
    rw [h3def, keys_hset, keys_hset, keys_hset]
    exact hknd
  have hbridge : linked hF pp qq := by
    unfold linked
    refine ⟨?_, ?_⟩
    · rw [hF_pp]
      rfl
    · rw [hF_qq]
      rfl
  have hheadq : L.head ≠ q := by
    intro he
    apply List.disjoint_left.mp hdisj (List.mem_cons_self _ _)
    rw [← he]
    exact List.mem_cons_self _ _
  have hheadqq : L.head ≠ qq := by
    intro he
    exact (List.disjoint_left.mp hdisj (List.mem_cons_self _ _))
      (List.mem_cons_of_mem q (he ▸ hqqmem))
  have htailmem : L.tail ∈ r ++ [L.tail] :=
    List.mem_append_right r (List.mem_cons_self _ _)
  have htailq : L.tail ≠ q := fun he => hqnotin (he ▸ htailmem)
  have htailpp : L.tail ≠ pp := by
    intro he
    exact (List.disjoint_left.mp hdisj (he ▸ hppmem))
      (List.mem_cons_of_mem q htailmem)
  have hclF : List.Chain' (linked hF) (L.head :: l) := by
    refine chain'_imp_mem (fun a b ha hb hab => ?_) hcl
    by_cases hap : a = pp
    · exfalso
      subst hap
      obtain ⟨nd, hnd, hndn⟩ := Option.bind_eq_some.mp hab.1
      rw [hpp] at hnd
      obtain rfl : nd = npp := (Option.some.inj hnd).symm
      have hbq : b = q := (Option.some.inj (hppn.symm.trans hndn)).symm
      apply List.disjoint_left.mp hdisj hb
      rw [hbq]
      exact List.mem_cons_self _ _
    · have haq : a ≠ q := by
        intro he
        apply List.disjoint_left.mp hdisj ha
        rw [he]
        exact List.mem_cons_self _ _
      have hbq : b ≠ q := by
        intro he
        apply List.disjoint_left.mp hdisj hb
        rw [he]
        exact List.mem_cons_self _ _
      have hbqq : b ≠ qq := by
        intro he
        exact (List.disjoint_left.mp hdisj hb)
          (List.mem_cons_of_mem q (he.symm ▸ hqqmem))
      exact (linked_congr2 (hFnext a haq hap) (hFprev b hbq hbqq)).mpr hab
  have hcrF : List.Chain' (linked hF) (r ++ [L.tail]) := by
    refine chain'_imp_mem (fun a b ha hb hab => ?_) hcr
    by_cases hbqq : b = qq
    · exfalso
      subst hbqq
      obtain ⟨nd, hnd, hndn⟩ := Option.bind_eq_some.mp hab.2
      rw [hqq] at hnd
      obtain rfl : nd = nqq := (Option.some.inj hnd).symm
      have haq : a = q := (Option.some.inj (hqqp.symm.trans hndn)).symm
      exact hqnotin (haq ▸ ha)
    · have haq : a ≠ q := fun he => hqnotin (he ▸ ha)
      have hbq : b ≠ q := fun he => hqnotin (he ▸ hb)
      have happ : a ≠ pp := by
        intro he
        exact (List.disjoint_left.mp hdisj (he ▸ hppmem))
          (List.mem_cons_of_mem q ha)
      exact (linked_congr2 (hFnext a haq happ) (hFprev b hbq hbqq)).mpr hab
  have hchainF : List.Chain' (linked hF) ((L.head :: l) ++ (r ++ [L.tail])) := by
    rw [List.chain'_append]
    refine ⟨hclF, hcrF, ?_⟩
    intro x hx y hy
    rw [getLast?_cons_eq] at hx
    rw [head?_append_single] at hy
    obtain rfl : pp = x := Option.some.inj (Option.mem_def.mp hx)
    obtain rfl : qq = y := Option.some.inj (Option.mem_def.mp hy)
    exact hbridge
  have hnodupF : ((L.head :: l) ++ (r ++ [L.tail])).Nodup :=
    List.Nodup.sublist
      ((List.sublist_cons_self q (r ++ [L.tail])).append_left (L.head :: l)) hnodup0
  have hshape2 : L.head :: (l ++ r) ++ [L.tail]
      = (L.head :: l) ++ (r ++ [L.tail]) := by simp
  refine ⟨h3, heval, ?_, ?_, hF_q, hqlink.1⟩
  · unfold Spine
    dsimp only
    rw [hshape2]
    refine ⟨hchainF, hnodupF, ?_, ?_, hkndF, ?_, ?_, ?_, ?_, ?_, ?_, ?_⟩
    · intro k hk
      obtain ⟨hkh, hkq⟩ := (hkeysF k).mp hk
      have hmem := hk1 k hkh
      rw [List.mem_append] at hmem
      rcases hmem with hmem | hmem
      · exact List.mem_append_left _ hmem
      · rcases List.mem_cons.mp hmem with he | hmem
        · exact absurd he hkq
        · exact List.mem_append_right _ hmem
    · intro k hk
      refine (hkeysF k).mpr ⟨?_, ?_⟩
      · apply hk2
        rw [List.mem_append] at hk ⊢
        rcases hk with hk | hk
        · exact Or.inl hk
        · exact Or.inr (List.mem_cons_of_mem q hk)
      · intro he
        rw [List.mem_append] at hk
        rcases hk with hk | hk
        · exact (List.disjoint_left.mp hdisj (he ▸ hk)) (List.mem_cons_self _ _)
        · exact hqnotin (he ▸ hk)
    · refine map_field_none ?_ ?_
      · refine mem_keys_iff_isSome.mp ((hkeysF L.head).mpr ⟨?_, hheadq⟩)
        exact hk2 L.head (List.mem_append_left _ (List.mem_cons_self _ _))
      · rw [hFprev L.head hheadq hheadqq]
        exact bind_none_of_map hhp
    · rw [hFval L.head hheadq]
      exact hhv
    · refine map_field_none ?_ ?_
      · refine mem_keys_iff_isSome.mp ((hkeysF L.tail).mpr ⟨?_, htailq⟩)
        exact hk2 L.tail (List.mem_append_right _ (List.mem_cons_of_mem q htailmem))
      · rw [hFnext L.tail htailq htailpp]
        exact bind_none_of_map htn
    · rw [hFval L.tail htailq]
      exact htv
    · intro i hi
      rw [List.mem_append] at hi
      have hiq : i ≠ q := by
        intro he
        rcases hi with hi | hi
        · exact (List.disjoint_left.mp hdisj
            (List.mem_cons_of_mem L.head (he ▸ hi))) (List.mem_cons_self _ _)
        · exact hqnotin (List.mem_append_left _ (he ▸ hi))
      rw [bind_congr_of_map (hFval i hiq)]
      apply hdata
      rcases hi with hi | hi
      · exact List.mem_append_left _ hi
      · exact List.mem_append_right _ (List.mem_cons_of_mem q hi)
    · rw [hcount]
      simp only [List.length_append, List.length_cons]
      omega
    · intro k hk
      exact hfresh k ((hkeysF k).mp hk).1
  · exact hFval

/-- Allocating a fresh node holding `v` and linking it before the
first node of `r` (or before the tail sentinel when `r = []`)
preserves the invariant, inserting the new address into the spine. -/
theorem link_spine {L : ListS α} {l r : List Nat} (v : α)
    (hS : Spine L (l ++ r)) :
    ∃ h3,
      linkBefore (L.heap ++ [(L.fresh, ⟨none, none, some v⟩)])
        (r.headD L.tail) L.fresh = some h3 ∧
      Spine { L with heap := h3, n := L.n + 1, fresh := L.fresh + 1 }
        (l ++ L.fresh :: r) ∧
      (∀ k, k ≠ L.fresh →
        (hget h3 k).map Node.val = (hget L.heap k).map Node.val) ∧
      (hget h3 L.fresh).map Node.val = some (some v) := by
  obtain ⟨hchain, hnodup, hk1, hk2, hknd, hhp, hhv, htn, htv, hdata, hcount, hfresh⟩ := hS
  have hshape : L.head :: (l ++ r) ++ [L.tail]
      = (L.head :: l) ++ (r ++ [L.tail]) := by simp
  rw [hshape] at hchain hnodup
  simp only [hshape] at hk1 hk2
  have hnodup0 := hnodup
  set c := L.fresh with hcdef
  set cN : Node α := ⟨none, none, some v⟩ with hcNdef
  set h0 := L.heap ++ [(c, cN)] with h0def
  set pp := l.getLastD L.head with hppdef
  set qq := r.headD L.tail with hqqdef
  rw [List.chain'_append] at hchain
  obtain ⟨hcl, hcr, hbr⟩ := hchain
  have hppqq : linked L.heap pp qq :=
    hbr pp (by rw [getLast?_cons_eq]; rfl) qq (by rw [head?_append_single]; rfl)
  rw [List.nodup_append] at hnodup
  obtain ⟨ndl, ndr, hdisj⟩ := hnodup
  have hppmem : pp ∈ L.head :: l := getLastD_mem_cons l L.head
  have hqqmem : qq ∈ r ++ [L.tail] := headD_mem_append r L.tail
  have hppqq_ne : pp ≠ qq :=
    fun he => (List.disjoint_left.mp hdisj hppmem) (he ▸ hqqmem)
  have hcnotkeys : c ∉ keys L.heap := fun hk => absurd (hfresh c hk) (Nat.lt_irrefl c)
  have hcnotfull : c ∉ (L.head :: l) ++ (r ++ [L.tail]) := fun hk => hcnotkeys (hk2 c hk)
  have hcpp : c ≠ pp :=
    fun he => hcnotfull (List.mem_append_left _ (he ▸ hppmem))
  have hcqq : c ≠ qq :=
    fun he => hcnotfull (List.mem_append_right _ (he ▸ hqqmem))
  have h0get : ∀ k, k ≠ c → hget h0 k = hget L.heap k := by
    intro k hk
    rcases ho : hget L.heap k with _ | nd
    · rw [h0def, hget_append_right ho, hget, hget,
        if_neg (fun he : c = k => hk he.symm)]
    · rw [h0def, hget_append_left ho]
  have h0c : hget h0 c = some cN := by
    rw [h0def, hget_append_right (hget_eq_none_of_not_mem hcnotkeys), hget,
      if_pos rfl]
  obtain ⟨npp, hpp0, hppn⟩ := Option.bind_eq_some.mp hppqq.1
  obtain ⟨nqq, hqq0, hqqp⟩ := Option.bind_eq_some.mp hppqq.2
  have hpp : hget h0 pp = some npp := by rw [h0get pp (fun he => hcpp he.symm), hpp0]
  have hqq : hget h0 qq = some nqq := by rw [h0get qq (fun he => hcqq he.symm), hqq0]
  have heval := linkBefore_eval hqq h0c hqqp hpp hcpp hcqq hppqq_ne
  set h3 := hset (hset (hset h0 c { cN with next := some qq, prev := some pp }) pp
    { npp with next := some c }) qq { nqq with prev := some c } with h3def
  have h3_c : hget h3 c = some ⟨some pp, some qq, some v⟩ := by
    rw [h3def, hget_hset_ne _ _ hcqq, hget_hset_ne _ _ hcpp, hget_hset_self, h0c]
    rfl
  have h3_pp : hget h3 pp = some { npp with next := some c } := by
    rw [h3def, hget_hset_ne _ _ hppqq_ne, hget_hset_self,
      hget_hset_ne _ _ (fun he => hcpp he.symm), hpp]
    rfl
  have h3_qq : hget h3 qq = some { nqq with prev := some c } := by
    rw [h3def, hget_hset_self, hget_hset_ne _ _ (fun he => hppqq_ne he.symm),
      hget_hset_ne _ _ (fun he => hcqq he.symm), hqq]
    rfl
  have h3_other : ∀ k, k ≠ c → k ≠ pp → k ≠ qq → hget h3 k = hget L.heap k := by
    intro k hkc hkpp hkqq
    rw [h3def, hget_hset_ne _ _ hkqq, hget_hset_ne _ _ hkpp,
      hget_hset_ne _ _ hkc, h0get k hkc]
  have h3val : ∀ k, k ≠ c →
      (hget h3 k).map Node.val = (hget L.heap k).map Node.val := by
    intro k hkc
    by_cases hkpp : k = pp
    · subst hkpp
      rw [h3_pp, hpp0]
      rfl
    · by_cases hkqq : k = qq
      · subst hkqq
        rw [h3_qq, hqq0]
        rfl
      · rw [h3_other k hkc hkpp hkqq]
  have h3next : ∀ k, k ≠ c → k ≠ pp →
      (hget h3 k).bind Node.next = (hget L.heap k).bind Node.next := by
    intro k hkc hkpp
    by_cases hkqq : k = qq
    · subst hkqq
      rw [h3_qq, hqq0]
      rfl
    · rw [h3_other k hkc hkpp hkqq]
  have h3prev : ∀ k, k ≠ c → k ≠ qq →
      (hget h3 k).bind Node.prev = (hget L.heap k).bind Node.prev := by
    intro k hkc hkqq
    by_cases hkpp : k = pp
    · subst hkpp
      rw [h3_pp, hpp0]
      rfl
    · rw [h3_other k hkc hkpp hkqq]
  have hkeys3 : ∀ k, k ∈ keys h3 ↔ (k ∈ keys L.heap ∨ k = c) := by
    intro k
    rw [h3def, keys_hset, keys_hset, keys_hset, h0def, keys_append]
    simp [keys]
  have hknd3 : (keys h3).Nodup := by
    rw [h3def, keys_hset, keys_hset, keys_hset, h0def, keys_append]
    refine List.Nodup.append hknd ?_ ?_
    · simp [keys]
    · intro a ha hb
      simp only [keys, List.map_cons, List.map_nil, List.mem_singleton] at hb
      exact hcnotkeys (hb ▸ ha)
  have hheadmem : L.head ∈ (L.head :: l) ++ (r ++ [L.tail]) :=
    List.mem_append_left _ (List.mem_cons_self _ _)
  have htailmem0 : L.tail ∈ r ++ [L.tail] :=
    List.mem_append_right r (List.mem_cons_self _ _)
  have hheadc : L.head ≠ c := fun he => hcnotfull (he ▸ hheadmem)
  have htailc : L.tail ≠ c :=
    fun he => hcnotfull (he ▸ List.mem_append_right _ htailmem0)
  have hheadqq : L.head ≠ qq := by
    intro he
    exact (List.disjoint_left.mp hdisj (List.mem_cons_self _ _)) (he ▸ hqqmem)
  have htailpp : L.tail ≠ pp := by
    intro he
    exact (List.disjoint_left.mp hdisj (he ▸ hppmem)) htailmem0
  have hclF : List.Chain' (linked h3) (L.head :: l) := by
    refine chain'_imp_mem (fun a b ha hb hab => ?_) hcl
    by_cases hap : a = pp
    · exfalso
      subst hap
      obtain ⟨nd, hnd, hndn⟩ := Option.bind_eq_some.mp hab.1
      rw [hpp0] at hnd
      obtain rfl : nd = npp := (Option.some.inj hnd).symm
      have hbqq : b = qq := (Option.some.inj (hppn.symm.trans hndn)).symm
      exact (List.disjoint_left.mp hdisj hb) (hbqq ▸ hqqmem)
    · have hac : a ≠ c := fun he =>
        hcnotfull (he ▸ List.mem_append_left _ ha)
      have hbc : b ≠ c := fun he =>
        hcnotfull (he ▸ List.mem_append_left _ hb)
      have hbqq : b ≠ qq :=
        fun he => (List.disjoint_left.mp hdisj hb) (he ▸ hqqmem)
      exact (linked_congr2 (h3next a hac hap) (h3prev b hbc hbqq)).mpr hab
  have hcrF : List.Chain' (linked h3) (r ++ [L.tail]) := by
    refine chain'_imp_mem (fun a b ha hb hab => ?_) hcr
    by_cases hbqq : b = qq
    · exfalso
      subst hbqq
      obtain ⟨nd, hnd, hndn⟩ := Option.bind_eq_some.mp hab.2
      rw [hqq0] at hnd
      obtain rfl : nd = nqq := (Option.some.inj hnd).symm
      have hapq : a = pp := (Option.some.inj (hqqp.symm.trans hndn)).symm
      exact (List.disjoint_left.mp hdisj (hapq ▸ hppmem)) ha
    · have hac : a ≠ c := fun he =>
        hcnotfull (he ▸ List.mem_append_right _ ha)
      have hbc : b ≠ c := fun he =>
        hcnotfull (he ▸ List.mem_append_right _ hb)
      have happ : a ≠ pp :=
        fun he => (List.disjoint_left.mp hdisj (he ▸ hppmem)) ha
      exact (linked_congr2 (h3next a hac happ) (h3prev b hbc hbqq)).mpr hab
  have hlink_ppc : linked h3 pp c := by
    unfold linked
    refine ⟨?_, ?_⟩
    · rw [h3_pp]
      rfl
    · rw [h3_c]
      rfl
  have hlink_cqq : linked h3 c qq := by
    unfold linked
    refine ⟨?_, ?_⟩
    · rw [h3_c]
      rfl
    · rw [h3_qq]
      rfl
  have hchainF : List.Chain' (linked h3) ((L.head :: l) ++ c :: (r ++ [L.tail])) := by
    rw [List.chain'_split]
    refine ⟨?_, ?_⟩
    · rw [List.chain'_append]
      refine ⟨hclF, List.chain'_singleton _, ?_⟩
      intro x hx y hy
      rw [getLast?_cons_eq] at hx
      obtain rfl : pp = x := Option.some.inj (Option.mem_def.mp hx)
      obtain rfl : c = y := Option.some.inj (Option.mem_def.mp hy)
      exact hlink_ppc
    · rw [List.chain'_cons']
      refine ⟨?_, hcrF⟩
      intro y hy
      rw [head?_append_single] at hy
      obtain rfl : qq = y := Option.some.inj (Option.mem_def.mp hy)
      exact hlink_cqq
  have hnodupF : ((L.head :: l) ++ c :: (r ++ [L.tail])).Nodup := by
    rw [List.nodup_append]
    refine ⟨ndl, ?_, ?_⟩
    · rw [List.nodup_cons]
      exact ⟨fun hk => hcnotfull (List.mem_append_right _ hk), ndr⟩
    · intro a ha hb
      rcases List.mem_cons.mp hb with he | hb
      · exact hcnotfull (he ▸ List.mem_append_left _ ha)
      · exact (List.disjoint_left.mp hdisj ha) hb
  have hshape2 : L.head :: (l ++ c :: r) ++ [L.tail]
      = (L.head :: l) ++ c :: (r ++ [L.tail]) := by simp
  refine ⟨h3, heval, ?_, h3val, ?_⟩
  · unfold Spine
    dsimp only
    rw [hshape2]
    refine ⟨hchainF, hnodupF, ?_, ?_, hknd3, ?_, ?_, ?_, ?_, ?_, ?_, ?_⟩
    · intro k hk
      rcases (hkeys3 k).mp hk with hkh | hkc
      · have hmem := hk1 k hkh
        rw [List.mem_append] at hmem
        rcases hmem with hmem | hmem
        · exact List.mem_append_left _ hmem
        · exact List.mem_append_right _ (List.mem_cons_of_mem c hmem)
      · subst hkc
        exact List.mem_append_right _ (List.mem_cons_self _ _)
    · intro k hk
      refine (hkeys3 k).mpr ?_
      rw [List.mem_append] at hk
      rcases hk with hk | hk
      · exact Or.inl (hk2 k (List.mem_append_left _ hk))
      · rcases List.mem_cons.mp hk with he | hk
        · exact Or.inr he
        · exact Or.inl (hk2 k (List.mem_append_right _ hk))
    · refine map_field_none ?_ ?_
      · exact mem_keys_iff_isSome.mp ((hkeys3 L.head).mpr
          (Or.inl (hk2 L.head hheadmem)))
      · rw [h3prev L.head hheadc hheadqq]
        exact bind_none_of_map hhp
    · rw [h3val L.head hheadc]
      exact hhv
    · refine map_field_none ?_ ?_
      · exact mem_keys_iff_isSome.mp ((hkeys3 L.tail).mpr
          (Or.inl (hk2 L.tail (List.mem_append_right _ htailmem0))))
      · rw [h3next L.tail htailc htailpp]
        exact bind_none_of_map htn
    · rw [h3val L.tail htailc]
      exact htv
    · intro i hi
      by_cases hic : i = c
      · subst hic
        rw [h3_c]
        rfl
      · rw [bind_congr_of_map (h3val i hic)]
        apply hdata
        rw [List.mem_append] at hi ⊢
        rcases hi with hi | hi
        · exact Or.inl hi
        · rcases List.mem_cons.mp hi with he | hi
          · exact absurd he hic
          · exact Or.inr hi
    · rw [hcount]
      simp only [List.length_append, List.length_cons]
      omega
    · intro k hk
      rcases (hkeys3 k).mp hk with hkh | hkc
      · exact Nat.lt_succ_of_lt (hfresh k hkh)
      · exact hkc ▸ Nat.lt_succ_self c
  · rw [h3_c]
    rfl

theorem hget_append_singleton_ne {h : Heap α} {c k : Nat} {nd : Node α}
    (hk : k ≠ c) : hget (h ++ [(c, nd)]) k = hget h k := by
  rcases ho : hget h k with _ | x
  · rw [hget_append_right ho]
    rw [hget, if_neg (fun he : c = k => hk he.symm), hget]
  · exact hget_append_left ho

theorem hget_append_singleton_self {h : Heap α} {c : Nat} {nd : Node α}
    (hc : hget h c = none) : hget (h ++ [(c, nd)]) c = some nd := by
  rw [hget_append_right hc, hget, if_pos rfl]

/-- The freshly constructed list is well formed with no data nodes. -/
theorem spine_mkList (α : Type) (s : Nat) : Spine (mkList α s) [] := by
  unfold Spine mkList
  dsimp only
  refine ⟨?_, ?_, ?_, ?_, ?_, rfl, rfl, rfl, rfl, ?_, rfl, ?_⟩
  · exact List.chain'_cons.mpr ⟨⟨rfl, rfl⟩, List.chain'_singleton _⟩
  · simp
  · intro k hk
    simpa [keys] using hk
  · intro k hk
    simpa [keys] using hk
  · simp [keys]
  · intro i hi
    exact absurd hi (List.not_mem_nil i)
  · intro k hk
    simp only [keys, List.map_cons, List.map_nil] at hk
    rcases List.mem_cons.mp hk with he | hk
    · omega
    · rcases List.mem_cons.mp hk with he | hk
      · omega
      · exact absurd hk (List.not_mem_nil k)

/-- `push_back` on a well-formed list: succeeds, appends the fresh
node to the spine, bumps `n` and `fresh`, changes no stored value. -/
theorem pushBack_spine {L : ListS α} {ids : List Nat} (v : α) (hS : Spine L ids) :
    ∃ L', pushBack L v = Out.ok L' () ∧
      Spine L' (ids ++ [L.fresh]) ∧
      L'.self = L.self ∧ L'.head = L.head ∧ L'.tail = L.tail ∧
      L'.n = L.n + 1 ∧ L'.fresh = L.fresh + 1 ∧
      (∀ k, k ≠ L.fresh →
        (hget L'.heap k).map Node.val = (hget L.heap k).map Node.val) ∧
      (hget L'.heap L.fresh).map Node.val = some (some v) := by
  have hS' : Spine L (ids ++ []) := by simpa using hS
  obtain ⟨h3, heval, hsp, hval, hvc⟩ := link_spine v hS'
  refine ⟨{ L with heap := h3, n := L.n + 1, fresh := L.fresh + 1 },
    ?_, ?_, rfl, rfl, rfl, rfl, rfl, hval, hvc⟩
  · rw [show ([] : List Nat).headD L.tail = L.tail from rfl] at heval
    simp only [pushBack, heval]
  · simpa using hsp

/-- `push_front` on a well-formed list: succeeds, prepends the fresh
node to the spine. -/
theorem pushFront_spine {L : ListS α} {ids : List Nat} (v : α) (hS : Spine L ids) :
    ∃ L', pushFront L v = Out.ok L' () ∧
      Spine L' (L.fresh :: ids) ∧
      L'.self = L.self ∧ L'.head = L.head ∧ L'.tail = L.tail ∧
      L'.n = L.n + 1 ∧ L'.fresh = L.fresh + 1 ∧
      (∀ k, k ≠ L.fresh →
        (hget L'.heap k).map Node.val = (hget L.heap k).map Node.val) ∧
      (hget L'.heap L.fresh).map Node.val = some (some v) := by
  have hhl : linked L.heap L.head (ids.headD L.tail) := by
    have hc := hS.1
    rw [List.cons_append, List.chain'_cons'] at hc
    exact hc.1 _ (by rw [head?_append_single]; rfl)
  have hheadfresh : L.head ≠ L.fresh := by
    intro he
    have hmem : L.head ∈ keys L.heap :=
      hS.2.2.2.1 L.head (List.mem_cons_self _ _)
    have := hS.2.2.2.2.2.2.2.2.2.2.2 L.head hmem
    omega
  obtain ⟨nhd, hhd, hhdn⟩ := Option.bind_eq_some.mp hhl.1
  have hS' : Spine L ([] ++ ids) := hS
  obtain ⟨h3, heval, hsp, hval, hvc⟩ := link_spine v hS'
  refine ⟨{ L with heap := h3, n := L.n + 1, fresh := L.fresh + 1 },
    ?_, hsp, rfl, rfl, rfl, rfl, rfl, hval, hvc⟩
  · have hh0 : hget (L.heap ++ [(L.fresh, ⟨none, none, some v⟩)]) L.head = some nhd :=
      (hget_append_singleton_ne hheadfresh).trans hhd
    simp only [pushFront, hh0, hhdn, heval]

/-- `pop_back` on a well-formed non-empty list: succeeds, removes the
last data node. -/
theorem popBack_spine {L : ListS α} {l : List Nat} {q : Nat}
    (hS : Spine L (l ++ [q])) :
    ∃ L', popBack L = Out.ok L' () ∧
      Spine L' l ∧
      L'.self = L.self ∧ L'.head = L.head ∧ L'.tail = L.tail ∧
      L'.n = L.n - 1 ∧ L'.fresh = L.fresh ∧
      (∀ k, k ≠ q →
        (hget L'.heap k).map Node.val = (hget L.heap k).map Node.val) ∧
      hget L'.heap q = none := by
  have hn : L.n ≠ 0 := by
    have := hS.2.2.2.2.2.2.2.2.2.2.1
    simp only [List.length_append, List.length_cons] at this
    omega
  have hlt : linked L.heap q L.tail := by
    have hc := hS.1
    have hshape : L.head :: (l ++ [q]) ++ [L.tail]
        = (L.head :: (l ++ [q])) ++ [L.tail] := by simp
    rw [hshape, List.chain'_append] at hc
    refine hc.2.2 q ?_ L.tail rfl
    rw [getLast?_cons_eq, List.getLastD_concat]
    rfl
  obtain ⟨ntl, htl, htlp⟩ := Option.bind_eq_some.mp hlt.2
  obtain ⟨h3, huval, hsp, hval, hnone, _⟩ := unlink_spine (r := []) hS
  refine ⟨{ L with heap := hdel h3 q, n := L.n - 1 },
    ?_, ?_, rfl, rfl, rfl, rfl, rfl, hval, hnone⟩
  · rw [popBack, if_neg hn]
    simp only [htl, htlp, huval]
  · simpa using hsp

/-- `pop_front` on a well-formed non-empty list: succeeds, removes the
first data node. -/
theorem popFront_spine {L : ListS α} {q : Nat} {r : List Nat}
    (hS : Spine L (q :: r)) :
    ∃ L', popFront L = Out.ok L' () ∧
      Spine L' r ∧
      L'.self = L.self ∧ L'.head = L.head ∧ L'.tail = L.tail ∧
      L'.n = L.n - 1 ∧ L'.fresh = L.fresh ∧
      (∀ k, k ≠ q →
        (hget L'.heap k).map Node.val = (hget L.heap k).map Node.val) ∧
      hget L'.heap q = none := by
  have hn : L.n ≠ 0 := by
    have := hS.2.2.2.2.2.2.2.2.2.2.1
    simp only [List.length_cons] at this
    omega
  have hhl : linked L.heap L.head q := by
    have hc := hS.1
    rw [List.cons_append, List.chain'_cons'] at hc
    exact hc.1 q (by rw [List.cons_append]; rfl)
  obtain ⟨nhd, hhd, hhdn⟩ := Option.bind_eq_some.mp hhl.1
  obtain ⟨h3, huval, hsp, hval, hnone, _⟩ := unlink_spine (l := []) hS
  refine ⟨{ L with heap := hdel h3 q, n := L.n - 1 },
    ?_, hsp, rfl, rfl, rfl, rfl, rfl, hval, hnone⟩
  · rw [popFront, if_neg hn]
    simp only [hhd, hhdn, huval]

/-- `erase` at a data node of a well-formed list: succeeds, removes
the node, and the returned iterator references the follower (the tail
sentinel when the erased node was last). -/
theorem eraseOp_spine {L : ListS α} {l r : List Nat} {q : Nat}
    (hS : Spine L (l ++ q :: r)) :
    ∃ L', eraseOp L ⟨some q, some L.self⟩
        = Out.ok L' ⟨some (r.headD L.tail), some L.self⟩ ∧
      Spine L' (l ++ r) ∧
      L'.self = L.self ∧ L'.head = L.head ∧ L'.tail = L.tail ∧
      L'.n = L.n - 1 ∧ L'.fresh = L.fresh ∧
      (∀ k, k ≠ q →
        (hget L'.heap k).map Node.val = (hget L.heap k).map Node.val) ∧
      hget L'.heap q = none := by
  have hn : L.n ≠ 0 := by
    have := hS.2.2.2.2.2.2.2.2.2.2.1
    simp only [List.length_append, List.length_cons] at this
    omega
  have hqtail : q ≠ L.tail := by
    have hnd := hS.2.1
    have hshape : L.head :: (l ++ q :: r) ++ [L.tail]
        = (L.head :: (l ++ q :: r)) ++ [L.tail] := by simp
    rw [hshape, List.nodup_append] at hnd
    intro he
    refine (List.disjoint_left.mp hnd.2.2
      (List.mem_cons_of_mem L.head
        (List.mem_append_right l (List.mem_cons_self q r)))) ?_
    rw [he]
    exact List.mem_cons_self _ _
  obtain ⟨h3, huval, hsp, hval, hnone, hqnext⟩ := unlink_spine hS
  obtain ⟨nd, hnd, hndn⟩ := Option.bind_eq_some.mp hqnext
  refine ⟨{ L with heap := hdel h3 q, n := L.n - 1 },
    ?_, hsp, rfl, rfl, rfl, rfl, rfl, hval, hnone⟩
  · rw [eraseOp, if_neg hn]
    dsimp only
    rw [if_pos rfl, if_neg hqtail]
    simp only [hnd, hndn, huval]

/-- Every successful run of push/pop operations ends in a well-formed
state, and the net count of pushes minus pops gives the size. -/
theorem runOps_invariant :
    ∀ (ops : List (Op α)) (L0 L : ListS α) (ids0 : List Nat),
      Spine L0 ids0 → runOps L0 ops = some L →
      (∃ ids, Spine L ids) ∧ L.n + countPop ops = L0.n + countPush ops := by
  intro ops
  induction ops with
  | nil =>
    intro L0 L ids0 hS hrun
    rw [runOps] at hrun
    obtain rfl := Option.some.inj hrun
    exact ⟨⟨ids0, hS⟩, by rw [countPush, countPop]⟩
  | cons o os ih =>
    intro L0 L ids0 hS hrun
    rw [runOps] at hrun
    cases o with
    | pushB v =>
      obtain ⟨L1, hok, hsp, _, _, _, hn, _, _, _⟩ := pushBack_spine v hS
      simp only [applyOp, hok] at hrun
      obtain ⟨hex, harith⟩ := ih L1 L _ hsp hrun
      refine ⟨hex, ?_⟩
      rw [countPush, countPop]
      omega
    | pushF v =>
      obtain ⟨L1, hok, hsp, _, _, _, hn, _, _, _⟩ := pushFront_spine v hS
      simp only [applyOp, hok] at hrun
      obtain ⟨hex, harith⟩ := ih L1 L _ hsp hrun
      refine ⟨hex, ?_⟩
      rw [countPush, countPop]
      omega
    | popB =>
      rcases List.eq_nil_or_concat ids0 with rfl | ⟨l, q, rfl⟩
      · have hn0 : L0.n = 0 := by
          have := hS.2.2.2.2.2.2.2.2.2.2.1
          simpa using this
        simp only [applyOp, popBack, if_pos hn0] at hrun
        exact absurd hrun (by simp)
      · have hlen : L0.n = l.length + 1 := by
          have := hS.2.2.2.2.2.2.2.2.2.2.1
          simpa using this
        obtain ⟨L1, hok, hsp, _, _, _, hn, _, _, _⟩ :=
          popBack_spine (show Spine L0 (l ++ [q]) from
            (List.concat_eq_append l q) ▸ hS)
        simp only [applyOp, hok] at hrun
        obtain ⟨hex, harith⟩ := ih L1 L _ hsp hrun
        refine ⟨hex, ?_⟩
        rw [countPush, countPop]
        omega
    | popF =>
      cases ids0 with
      | nil =>
        have hn0 : L0.n = 0 := by
          have := hS.2.2.2.2.2.2.2.2.2.2.1
          simpa using this
        simp only [applyOp, popFront, if_pos hn0] at hrun
        exact absurd hrun (by simp)
      | cons q r =>
        have hlen : L0.n = r.length + 1 := by
          have := hS.2.2.2.2.2.2.2.2.2.2.1
          simpa using this
        obtain ⟨L1, hok, hsp, _, _, _, hn, _, _, _⟩ := popFront_spine hS
        simp only [applyOp, hok] at hrun
        obtain ⟨hex, harith⟩ := ih L1 L _ hsp hrun
        refine ⟨hex, ?_⟩
        rw [countPush, countPop]
        omega

/-- C4: for every sequence of push_back/push_front/pop_back/pop_front
operations applied to an initially empty list whose pops all hit a
non-empty list (a pop on an empty list throws, so such a run does not
complete), `size()` equals the number of pushes minus the number of
pops, and `empty()` returns `true` exactly when `size() == 0`.  As the
sequence is universally quantified, the equation holds at every prefix
of a longer run. -/
theorem push_pop_size (ops : List (Op Nat)) (L : ListS Nat)
    (hrun : runOps (mkList Nat 0) ops = some L) :
    sizeOp L = countPush ops - countPop ops ∧
    countPop ops ≤ countPush ops ∧
    (emptyOp L = true ↔ sizeOp L = 0) := by
  obtain ⟨⟨ids, hsp⟩, harith⟩ :=
    runOps_invariant ops (mkList Nat 0) L [] (spine_mkList Nat 0) hrun
  have hmk : (mkList Nat 0).n = 0 := rfl
  rw [hmk] at harith
  refine ⟨?_, ?_, ?_⟩
  · unfold sizeOp
    omega
  · omega
  · unfold emptyOp sizeOp
    simp

/-- Witness for C4 at the concrete run `[push_back 5, pop_back]`. -/
theorem push_pop_size_witness :
    sizeOp (⟨0, [(0, ⟨none, some 1, none⟩), (1, ⟨some 0, none, none⟩)],
        0, 1, 0, 3⟩ : ListS Nat)
      = countPush [Op.pushB (5 : Nat), Op.popB]
        - countPop [Op.pushB (5 : Nat), Op.popB] ∧
    countPop [Op.pushB (5 : Nat), Op.popB]
      ≤ countPush [Op.pushB (5 : Nat), Op.popB] ∧
    (emptyOp (⟨0, [(0, ⟨none, some 1, none⟩), (1, ⟨some 0, none, none⟩)],
        0, 1, 0, 3⟩ : ListS Nat) = true ↔
      sizeOp (⟨0, [(0, ⟨none, some 1, none⟩), (1, ⟨some 0, none, none⟩)],
        0, 1, 0, 3⟩ : ListS Nat) = 0) :=
  push_pop_size [Op.pushB 5, Op.popB] _ (by decide)

/-- C7: dereferencing (`*` or `->`) the iterator returned by `end()`
fails with InvalidIterator; incrementing it (either form) fails with
InvalidIterator; and increment, decrement and dereference on a
default-constructed (unbound) iterator fail with InvalidIterator — in
every case the carried state is the unmoved iterator, and the list is
not consulted for a mutation (the operations return without touching
it). -/
theorem end_unbound_iterator_errors (L : ListS α) :
    derefIt L (endIt L) = Out.err (endIt L) Err.invalidIterator ∧
    arrowIt L (endIt L) = Out.err (endIt L) Err.invalidIterator ∧
    incPre L (endIt L) = Out.err (endIt L) Err.invalidIterator ∧
    incPost L (endIt L) = Out.err (endIt L) Err.invalidIterator ∧
    incPre L ⟨none, none⟩ = Out.err ⟨none, none⟩ Err.invalidIterator ∧
    incPost L ⟨none, none⟩ = Out.err ⟨none, none⟩ Err.invalidIterator ∧
    decPre L ⟨none, none⟩ = Out.err ⟨none, none⟩ Err.invalidIterator ∧
    decPost L ⟨none, none⟩ = Out.err ⟨none, none⟩ Err.invalidIterator ∧
    derefIt L ⟨none, none⟩ = Out.err ⟨none, none⟩ Err.invalidIterator ∧
    arrowIt L ⟨none, none⟩ = Out.err ⟨none, none⟩ Err.invalidIterator := by
  refine ⟨?_, ?_, ?_, ?_, rfl, rfl, rfl, rfl, rfl, rfl⟩
  · by_cases h : L.tail = L.head <;> simp [derefIt, endIt, h]
  · by_cases h : L.tail = L.head <;> simp [arrowIt, endIt, h]
  · simp [incPre, endIt]
  · simp [incPost, endIt]

/-- C8: in every public operation validation precedes mutation: when
the outcome is an exception, the state it carries (the list for list
operations, the iterator for iterator operations) is exactly the
state before the call. -/
theorem errors_preserve_state (L : ListS α) (pos : Iter) (v : α) :
    errState L (eraseOp L pos) ∧
    errState L (insertOp L pos v) ∧
    errState L (popBack L) ∧
    errState L (popFront L) ∧
    errState L (frontOp L) ∧
    errState L (backOp L) ∧
    errState pos (incPre L pos) ∧
    errState pos (incPost L pos) ∧
    errState pos (decPre L pos) ∧
    errState pos (decPost L pos) ∧
    errState pos (derefIt L pos) ∧
    errState pos (arrowIt L pos) := by
  refine ⟨?_, ?_, ?_, ?_, ?_, ?_, ?_, ?_, ?_, ?_, ?_, ?_⟩
  · rw [eraseOp.eq_def]
    repeat' first
      | split
      | dsimp only
    all_goals trivial
  · rw [insertOp.eq_def]
    repeat' first
      | split
      | dsimp only
    all_goals trivial
  · rw [popBack.eq_def]
    repeat' first
      | split
      | dsimp only
    all_goals trivial
  · rw [popFront.eq_def]
    repeat' first
      | split
      | dsimp only
    all_goals trivial
  · rw [frontOp.eq_def]
    repeat' first
      | split
      | dsimp only
    all_goals trivial
  · rw [backOp.eq_def]
    repeat' first
      | split
      | dsimp only
    all_goals trivial
  · rw [incPre.eq_def]
    repeat' first
      | split
      | dsimp only
    all_goals trivial
  · rw [incPost.eq_def]
    repeat' first
      | split
      | dsimp only
    all_goals trivial
  · rw [decPre.eq_def]
    repeat' first
      | split
      | dsimp only
    all_goals trivial
  · rw [decPost.eq_def]
    repeat' first
      | split
      | dsimp only
    all_goals trivial
  · rw [derefIt.eq_def]
    repeat' first
      | split
      | dsimp only
    all_goals trivial
  · rw [arrowIt.eq_def]
    repeat' first
      | split
      | dsimp only
    all_goals trivial

/-- C10: copy-assigning a list to itself takes the `this == &other`
early return: the resulting state is identical — same element
sequence, same count, same heap, hence the identity of every node
(sentinels and data nodes) is unchanged and nothing is deallocated or
reallocated. -/
theorem self_assign_noop (L : ListS α) : assignOp true L L = some L := rfl

/-- The concrete one-element list is well formed, with the single
data node at address 2. -/
theorem spine_oneList : Spine oneList [2] := by
  refine ⟨?_, by decide, by decide, by decide, by decide, rfl, rfl, rfl, rfl,
    by decide, rfl, by decide⟩
  exact List.chain'_cons.mpr ⟨by decide,
    List.chain'_cons.mpr ⟨by decide, List.chain'_singleton _⟩⟩

/-- C2 counterexample: on the concrete non-empty list `[5]`,
decrementing (either form) the iterator returned by `begin()` does
not fail: it succeeds and moves the iterator to the head sentinel
(address 0), because `operator--` only rejects an iterator already at
the head sentinel. -/
theorem dec_begin_counterexample :
    beginIt oneList = some ⟨some 2, some 0⟩ ∧
    decPre oneList ⟨some 2, some 0⟩ = Out.ok ⟨some 0, some 0⟩ ⟨some 0, some 0⟩ ∧
    decPost oneList ⟨some 2, some 0⟩ = Out.ok ⟨some 0, some 0⟩ ⟨some 2, some 0⟩ := by
  decide

/-- C2 (amended): for every non-empty list, prefix or postfix
decrement of the iterator returned by `begin()` succeeds and yields
the iterator positioned at the head sentinel; only decrementing an
iterator already at the head sentinel fails with InvalidIterator
(the iterator is not moved then, and the list is never mutated by
iterator navigation). -/
theorem dec_begin_amended {L : ListS Nat} {q : Nat} {rest : List Nat}
    (hS : Spine L (q :: rest)) :
    beginIt L = some ⟨some q, some L.self⟩ ∧
    decPre L ⟨some q, some L.self⟩
      = Out.ok ⟨some L.head, some L.self⟩ ⟨some L.head, some L.self⟩ ∧
    decPost L ⟨some q, some L.self⟩
      = Out.ok ⟨some L.head, some L.self⟩ ⟨some q, some L.self⟩ ∧
    decPre L ⟨some L.head, some L.self⟩
      = Out.err ⟨some L.head, some L.self⟩ Err.invalidIterator ∧
    decPost L ⟨some L.head, some L.self⟩
      = Out.err ⟨some L.head, some L.self⟩ Err.invalidIterator := by
  have hchain := hS.1
  rw [List.cons_append, List.chain'_cons'] at hchain
  have hlink : linked L.heap L.head q :=
    hchain.1 q (by rw [List.cons_append]; rfl)
  obtain ⟨nhd, hhd, hhdn⟩ := Option.bind_eq_some.mp hlink.1
  obtain ⟨nq, hq, hqp⟩ := Option.bind_eq_some.mp hlink.2
  have hnodup := hS.2.1
  have hqhead : q ≠ L.head := by
    intro he
    rw [List.cons_append, List.nodup_cons] at hnodup
    exact hnodup.1 (he ▸ List.mem_append_left _ (List.mem_cons_self _ _))
  have hqtail : q ≠ L.tail := by
    intro he
    rw [List.cons_append, List.nodup_cons, List.cons_append,
      List.nodup_cons] at hnodup
    exact hnodup.2.1 (he ▸ List.mem_append_right _ (List.mem_cons_self _ _))
  refine ⟨?_, ?_, ?_, ?_, ?_⟩
  · simp only [beginIt, hhd, hhdn]
  · rw [decPre.eq_def]
    dsimp only
    rw [if_pos rfl, if_neg hqhead, if_neg hqtail]
    simp only [hq, hqp]
  · rw [decPost.eq_def]
    dsimp only
    rw [if_pos rfl, if_neg hqhead, if_neg hqtail]
    simp only [hq, hqp]
  · rw [decPre.eq_def]
    dsimp only
    rw [if_pos rfl, if_pos rfl]
  · rw [decPost.eq_def]
    dsimp only
    rw [if_pos rfl, if_pos rfl]

/-- Witness for the amended C2 at the concrete list `[5]`. -/
theorem dec_begin_amended_witness :
    beginIt oneList = some ⟨some 2, some oneList.self⟩ ∧
    decPre oneList ⟨some 2, some oneList.self⟩
      = Out.ok ⟨some oneList.head, some oneList.self⟩
          ⟨some oneList.head, some oneList.self⟩ ∧
    decPost oneList ⟨some 2, some oneList.self⟩
      = Out.ok ⟨some oneList.head, some oneList.self⟩ ⟨some 2, some oneList.self⟩ ∧
    decPre oneList ⟨some oneList.head, some oneList.self⟩
      = Out.err ⟨some oneList.head, some oneList.self⟩ Err.invalidIterator ∧
    decPost oneList ⟨some oneList.head, some oneList.self⟩
      = Out.err ⟨some oneList.head, some oneList.self⟩ Err.invalidIterator :=
  @dec_begin_amended oneList 2 [] spine_oneList

/-- C9 counterexample: at the concrete non-empty list `[5]`, `erase`
on the iterator positioned at the head sentinel is not rejected by
validation, but it does not unlink and deallocate the head sentinel
either: the protected unlink dereferences the head sentinel's null
`prev` pointer — undefined behaviour. -/
theorem erase_head_counterexample :
    eraseOp oneList ⟨some 0, some 0⟩ = Out.ub := by decide

/-- C9 (amended): `erase`'s validation rejects exactly an owner
mismatch, a null node reference and the tail sentinel; an iterator
bound to the list and positioned at the head sentinel (reachable by
decrementing `begin()` of a non-empty list) passes validation, and
`erase` then dereferences the head sentinel's null `prev` link:
undefined behaviour rather than a clean unlink-and-deallocate. -/
theorem erase_head_sentinel_ub {L : ListS Nat} {ids : List Nat}
    (hS : Spine L ids) (hne : ids ≠ []) :
    eraseOp L ⟨some L.head, some L.self⟩ = Out.ub := by
  have hn : L.n ≠ 0 := by
    have := hS.2.2.2.2.2.2.2.2.2.2.1
    intro h0
    rw [h0] at this
    exact hne (List.eq_nil_of_length_eq_zero this.symm)
  have hheadtail : L.head ≠ L.tail := by
    have hnodup := hS.2.1
    rw [List.cons_append, List.nodup_cons] at hnodup
    intro he
    exact hnodup.1 (he ▸ List.mem_append_right _ (List.mem_cons_self _ _))
  obtain ⟨nhd, hhd⟩ : ∃ nd, hget L.heap L.head = some nd := by
    rcases ho : hget L.heap L.head with _ | nd
    · have := hS.2.2.2.2.2.1
      rw [ho] at this
      exact absurd this (by simp)
    · exact ⟨nd, rfl⟩
  have hhdp : nhd.prev = none := by
    have := hS.2.2.2.2.2.1
    rw [hhd] at this
    simpa using this
  rw [eraseOp, if_neg hn]
  dsimp only
  rw [if_pos rfl, if_neg (fun he : L.head = L.tail => hheadtail he)]
  simp only [hhd, unlink, hhdp]

/-- Witness for the amended C9 at the concrete list `[5]`. -/
theorem erase_head_sentinel_ub_witness :
    eraseOp oneList ⟨some oneList.head, some oneList.self⟩ = Out.ub :=
  @erase_head_sentinel_ub oneList [2] spine_oneList (by decide)

/-- C3: the full contract of `erase(pos)`.  (i) On an empty list it
fails with EmptyContainer regardless of the iterator.  (ii) On a
non-empty list it fails with InvalidIterator when the iterator's
owner is not this list, when it references no node, or when it
references the tail sentinel.  (iii) When the iterator is bound to
this list and references a data node `q` (spine `l ++ q :: r`), the
call succeeds: `q` is unlinked and deallocated, the count drops by
one, the remaining elements keep their values and order, and the
returned iterator references the node that followed `q` — `end()`
(the tail sentinel) when `q` was last. -/
theorem erase_contract (L : ListS Nat) (pos : Iter) :
    (L.n = 0 → eraseOp L pos = Out.err L Err.containerIsEmpty) ∧
    (L.n ≠ 0 →
      (pos.owner ≠ some L.self ∨ pos.p = none ∨ pos.p = some L.tail) →
      eraseOp L pos = Out.err L Err.invalidIterator) ∧
    (∀ l q r, Spine L (l ++ q :: r) → pos = ⟨some q, some L.self⟩ →
      eraseOk L pos ⟨some (r.headD L.tail), some L.self⟩ (l ++ r) q) := by
  refine ⟨?_, ?_, ?_⟩
  · intro h0
    rw [eraseOp, if_pos h0]
  · intro hn hbad
    rw [eraseOp, if_neg hn]
    rcases hbad with hb | hb | hb
    · rw [if_neg hb]
    · by_cases ho : pos.owner = some L.self
      · rw [if_pos ho]
        simp only [hb]
      · rw [if_neg ho]
    · by_cases ho : pos.owner = some L.self
      · rw [if_pos ho]
        simp only [hb]
        simp
      · rw [if_neg ho]
  · intro l q r hS hpos
    subst hpos
    obtain ⟨L', hok, hsp, _, _, _, hn', _, hval, hnone⟩ := eraseOp_spine hS
    have hiq : ∀ i ∈ l ++ r, i ≠ q := by
      have hnodup := hS.2.1
      rw [List.cons_append, List.nodup_cons] at hnodup
      have h2 := hnodup.2
      have hsh : (l ++ q :: r) ++ [L.tail] = l ++ q :: (r ++ [L.tail]) := by simp
      rw [hsh, List.nodup_append] at h2
      intro i hi he
      rw [List.mem_append] at hi
      rcases hi with hi | hi
      · refine (List.disjoint_left.mp h2.2.2 hi) ?_
        rw [he]
        exact List.mem_cons_self _ _
      · have h3 := h2.2.1
        rw [List.nodup_cons] at h3
        exact h3.1 (List.mem_append_left _ (he ▸ hi))
    unfold eraseOk
    rw [hok]
    refine ⟨rfl, hsp, hn', hnone, ?_⟩
    unfold elemsAt
    refine List.filterMap_congr ?_
    intro i hi
    exact bind_congr_of_map (hval i (hiq i hi))

/-- Witness for C3: the empty-list failure at a fresh list, the
owner-mismatch, null and tail-sentinel failures and the successful
erase of the single data node of the concrete list `[5]`. -/
theorem erase_contract_witness :
    eraseOp (mkList Nat 7) ⟨some 1, some 7⟩
      = Out.err (mkList Nat 7) Err.containerIsEmpty ∧
    eraseOp oneList ⟨some 2, some 99⟩ = Out.err oneList Err.invalidIterator ∧
    eraseOp oneList ⟨none, some 0⟩ = Out.err oneList Err.invalidIterator ∧
    eraseOp oneList ⟨some 1, some 0⟩ = Out.err oneList Err.invalidIterator ∧
    eraseOk oneList ⟨some 2, some 0⟩ ⟨some 1, some 0⟩ [] 2 :=
  ⟨(erase_contract (mkList Nat 7) ⟨some 1, some 7⟩).1 rfl,
   (erase_contract oneList ⟨some 2, some 99⟩).2.1 (by decide)
     (Or.inl (by decide)),
   (erase_contract oneList ⟨none, some 0⟩).2.1 (by decide)
     (Or.inr (Or.inl rfl)),
   (erase_contract oneList ⟨some 1, some 0⟩).2.1 (by decide)
     (Or.inr (Or.inr rfl)),
   (erase_contract oneList ⟨some 2, some 0⟩).2.2 [] 2 [] spine_oneList rfl⟩

/-- C1: merging two ascending tagged sequences (tag `false` = element
of A/`this`, tag `true` = element of B/`other`, the comparison sees
only the value): `other` is left empty; the result is an ascending
interleaving of the two inputs (a permutation of `A ++ B` whose
restriction to each origin is the original sequence, so relative
order within each source is preserved); among equal values no element
of B ever precedes an element of A; and when `other` is the same
object as `this` the call returns immediately, changing nothing. -/
theorem merge_correct (A B : List Tagged)
    (hA : A.Pairwise (fun x y => x.1 ≤ y.1))
    (hB : B.Pairwise (fun x y => x.1 ≤ y.1))
    (htagA : ∀ x ∈ A, x.2 = false) (htagB : ∀ x ∈ B, x.2 = true) :
    (mergeOp ltv false A B).2 = [] ∧
    List.Perm (mergeOp ltv false A B).1 (A ++ B) ∧
    (mergeOp ltv false A B).1.Pairwise (fun x y => x.1 ≤ y.1) ∧
    (mergeOp ltv false A B).1.filter (fun x => !x.2) = A ∧
    (mergeOp ltv false A B).1.filter (fun x => x.2) = B ∧
    (mergeOp ltv false A B).1.Pairwise
      (fun x y => ¬(x.2 = true ∧ y.2 = false ∧ x.1 = y.1)) ∧
    (∀ C D : List Tagged, mergeOp ltv true C D = (C, D)) := by
  have hm : mergeOp ltv false A B = (mergeCore ltv A B, []) := by
    rw [mergeOp, if_neg (by simp), mergeRun_eq_append, List.nil_append]
  rw [hm]
  refine ⟨rfl, ?_, ?_, ?_, ?_, ?_, fun C D => rfl⟩
  · exact mergeCore_perm ltv A B
  · refine @mergeCore_sorted Tagged (fun x y => x.1 ≤ y.1) ltv
      (fun a b c hab hbc => Nat.le_trans hab hbc) ?_ ?_ A B hA hB
    · intro a b hlt
      exact Nat.le_of_lt (of_decide_eq_true hlt)
    · intro a b hlt
      exact Nat.le_of_not_lt (of_decide_eq_false hlt)
  · refine mergeCore_filter_pos ltv _ A B ?_ ?_
    · intro x hx
      rw [htagA x hx]
      rfl
    · intro x hx
      rw [htagB x hx]
      rfl
  · refine mergeCore_filter_neg ltv _ A B ?_ ?_
    · intro x hx
      rw [htagA x hx]
    · intro x hx
      rw [htagB x hx]
  · exact mergeCore_ties A B hA htagA htagB

/-- Witness for C1 at the spec's example: A = `[1,3,5]` from `this`,
B = `[2,3,4]` from `other`. -/
theorem merge_correct_witness :
    (mergeOp ltv false [(1, false), (3, false), (5, false)]
      [(2, true), (3, true), (4, true)]).2 = [] ∧
    List.Perm (mergeOp ltv false [(1, false), (3, false), (5, false)]
      [(2, true), (3, true), (4, true)]).1
      ([(1, false), (3, false), (5, false)] ++ [(2, true), (3, true), (4, true)]) ∧
    (mergeOp ltv false [(1, false), (3, false), (5, false)]
      [(2, true), (3, true), (4, true)]).1.Pairwise (fun x y => x.1 ≤ y.1) ∧
    (mergeOp ltv false [(1, false), (3, false), (5, false)]
      [(2, true), (3, true), (4, true)]).1.filter (fun x => !x.2)
      = [(1, false), (3, false), (5, false)] ∧
    (mergeOp ltv false [(1, false), (3, false), (5, false)]
      [(2, true), (3, true), (4, true)]).1.filter (fun x => x.2)
      = [(2, true), (3, true), (4, true)] ∧
    (mergeOp ltv false [(1, false), (3, false), (5, false)]
      [(2, true), (3, true), (4, true)]).1.Pairwise
      (fun x y => ¬(x.2 = true ∧ y.2 = false ∧ x.1 = y.1)) ∧
    (∀ C D : List Tagged, mergeOp ltv true C D = (C, D)) :=
  merge_correct [(1, false), (3, false), (5, false)]
    [(2, true), (3, true), (4, true)]
    (by decide) (by decide) (by decide) (by decide)

theorem uniqueOp_eq_core (eqb : α → α → Bool) (l : List α) :
    uniqueOp eqb l = uniqueCore eqb l := by
  match l with
  | [] => rw [uniqueOp, if_pos (by simp), uniqueCore]
  | [a] =>
    rw [uniqueOp, if_pos (by simp), uniqueCore, List.dropWhile_nil, uniqueCore]
  | a :: b :: t =>
    rw [uniqueOp, if_neg (by simp)]

/-- C6: `unique()` removes exactly the non-first elements of each
maximal run of adjacent equal elements — it computes the canonical
destuttering of the sequence (keep an element iff it differs from its
predecessor), so non-adjacent equal elements are untouched; it is a
no-op on sequences of length at most one; the count afterwards is the
number of maximal runs; the result has no adjacent equal elements;
and the spec's example holds. -/
theorem unique_correct (l : List Nat) :
    uniqueOp (fun a b => a == b) l = List.destutter (· ≠ ·) l ∧
    (uniqueOp (fun a b => a == b) l).length = runsCount l ∧
    uniqueOp (fun a b => a == b) ([] : List Nat) = [] ∧
    (∀ a : Nat, uniqueOp (fun a b => a == b) [a] = [a]) ∧
    uniqueOp (fun a b => a == b) [1, 1, 2, 2, 2, 3, 1] = [1, 2, 3, 1] ∧
    List.Chain' (· ≠ ·) (uniqueOp (fun a b => a == b) l) := by
  have heq : ∀ a b : Nat, ((fun a b : Nat => a == b) a b) = true ↔ a = b := by
    intro a b
    exact beq_iff_eq
  have hdes : uniqueOp (fun a b : Nat => a == b) l = List.destutter (· ≠ ·) l := by
    rw [uniqueOp_eq_core, uniqueCore_eq_destutter _ heq]
  refine ⟨hdes, ?_, rfl, fun a => rfl, ?_, ?_⟩
  · rw [hdes]
    cases l with
    | nil => rfl
    | cons c t =>
      rw [List.destutter_cons']
      exact length_destutter'_runs t c
  · rw [uniqueOp_eq_core]
    simp [uniqueCore, List.dropWhile]
  · rw [hdes]
    exact List.destutter_is_chain' (· ≠ ·) l

theorem swapNode_swapNode (nd : Node α) : swapNode (swapNode nd) = nd := by
  cases nd
  rfl

theorem nextPath_congr {h hx : Heap α} {op : Option Nat} {xs : List Nat}
    (hp : NextPath h op xs) :
    (∀ x ∈ xs, hget hx x = hget h x) → NextPath hx op xs := by
  induction hp with
  | nil => intro _; exact NextPath.nil
  | @cons c nd rest hc hrest ih =>
    intro hcong
    exact NextPath.cons ((hcong c (List.mem_cons_self _ _)).trans hc)
      (ih fun x hx => hcong x (List.mem_cons_of_mem _ hx))

theorem swapAll_cons (read acc : Heap α) (c : Nat) (rest : List Nat) :
    swapAll read acc (c :: rest) =
      match hget read c with
      | some nd => swapAll read (hset acc c (swapNode nd)) rest
      | none => swapAll read acc rest := by
  rcases ho : hget read c with _ | nd <;>
    simp only [swapAll, List.foldl_cons, ho]

theorem swapAll_congr {r1 r2 : Heap α} :
    ∀ (xs : List Nat) (acc : Heap α),
      (∀ x ∈ xs, hget r1 x = hget r2 x) →
      swapAll r1 acc xs = swapAll r2 acc xs := by
  intro xs
  induction xs with
  | nil => intro acc _; rfl
  | cons c rest ih =>
    intro acc hcong
    rw [swapAll_cons, swapAll_cons, hcong c (List.mem_cons_self _ _)]
    rcases ho : hget r2 c with _ | nd <;> simp only [ho] <;>
      exact ih _ fun x hx => hcong x (List.mem_cons_of_mem _ hx)

theorem hget_swapAll_not_mem {read : Heap α} :
    ∀ (xs : List Nat) (acc : Heap α) (k : Nat), k ∉ xs →
      hget (swapAll read acc xs) k = hget acc k := by
  intro xs
  induction xs with
  | nil => intro acc k _; rfl
  | cons c rest ih =>
    intro acc k hk
    have hkc : k ≠ c := by
      intro he
      apply hk
      rw [he]
      exact List.mem_cons_self _ _
    rw [swapAll_cons]
    rcases ho : hget read c with _ | nd <;> simp only [ho]
    · exact ih acc k fun hx => hk (List.mem_cons_of_mem _ hx)
    · rw [ih _ k fun hx => hk (List.mem_cons_of_mem _ hx)]
      exact hget_hset_ne _ _ hkc

theorem hget_swapAll_mem {read : Heap α} :
    ∀ (xs : List Nat) (acc : Heap α) (k : Nat) (nd : Node α), xs.Nodup →
      k ∈ xs → hget read k = some nd → (hget acc k).isSome = true →
      hget (swapAll read acc xs) k = some (swapNode nd) := by
  intro xs
  induction xs with
  | nil =>
    intro acc k nd _ hk _ _
    exact absurd hk (List.not_mem_nil k)
  | cons c rest ih =>
    intro acc k nd hnodup hk hr hacc
    rw [List.nodup_cons] at hnodup
    rw [swapAll_cons]
    by_cases hkc : k = c
    · subst hkc
      rw [hr]
      simp only
      rw [hget_swapAll_not_mem rest _ k hnodup.1, hget_hset_self]
      obtain ⟨x, hx⟩ := Option.isSome_iff_exists.mp hacc
      rw [hx]
      rfl
    · have hkrest : k ∈ rest := by
        rcases List.mem_cons.mp hk with he | hrest
        · exact absurd he hkc
        · exact hrest
      rcases ho : hget read c with _ | ndc <;> simp only [ho]
      · exact ih _ k nd hnodup.2 hkrest hr hacc
      · refine ih _ k nd hnodup.2 hkrest hr ?_
        rw [hget_hset_ne _ _ hkc]
        exact hacc

theorem keys_swapAll {read : Heap α} :
    ∀ (xs : List Nat) (acc : Heap α), keys (swapAll read acc xs) = keys acc := by
  intro xs
  induction xs with
  | nil => intro acc; rfl
  | cons c rest ih =>
    intro acc
    rw [swapAll_cons]
    rcases ho : hget read c with _ | nd <;> simp only [ho]
    · exact ih acc
    · rw [ih _]
      exact keys_hset _ _ _

theorem revLoop_eq :
    ∀ (xs : List Nat) (h : Heap α) (op : Option Nat),
      NextPath h op xs → xs.Nodup → ∀ fuel, xs.length ≤ fuel →
      revLoop fuel h op = some (swapAll h h xs) := by
  intro xs
  induction xs with
  | nil =>
    intro h op hp _ fuel _
    cases hp
    cases fuel with
    | zero => rfl
    | succ f => rfl
  | cons c rest ih =>
    intro h op hp hnodup fuel hf
    cases hp with
    | cons hc hrest =>
      rename_i nd
      cases fuel with
      | zero => exact absurd hf (by simp)
      | succ f =>
        simp only [revLoop, hc]
        rw [List.nodup_cons] at hnodup
        have hcong : ∀ x ∈ rest,
            hget (hset h c (swapNode nd)) x = hget h x := by
          intro x hx
          exact hget_hset_ne h _ fun he => hnodup.1 (he ▸ hx)
        have hp1 : NextPath (hset h c (swapNode nd)) nd.next rest :=
          nextPath_congr hrest hcong
        rw [show ({ nd with next := nd.prev, prev := nd.next } : Node α)
          = swapNode nd from rfl]
        rw [ih (hset h c (swapNode nd)) nd.next hp1 hnodup.2 f
          (by simpa using hf)]
        rw [swapAll_congr rest _ hcong, swapAll_cons, hc]

/-- Walking the chain of a well-formed list from the head sentinel
follows exactly `head :: ids ++ [tail]` and ends at the tail
sentinel's null `next`. -/
theorem chain_nextPath {h : Heap α} :
    ∀ (xs : List Nat) (c : Nat), List.Chain' (linked h) (c :: xs) →
      (∀ x ∈ c :: xs, (hget h x).isSome = true) →
      (hget h (xs.getLastD c)).bind Node.next = none →
      NextPath h (some c) (c :: xs) := by
  intro xs
  induction xs with
  | nil =>
    intro c _ hsome hlast
    obtain ⟨nd, hnd⟩ := Option.isSome_iff_exists.mp
      (hsome c (List.mem_cons_self _ _))
    refine NextPath.cons hnd ?_
    have hn : nd.next = none := by
      rw [show (([] : List Nat).getLastD c) = c from rfl, hnd] at hlast
      simpa using hlast
    rw [hn]
    exact NextPath.nil
  | cons d rest ih =>
    intro c hchain hsome hlast
    rw [List.chain'_cons] at hchain
    obtain ⟨nc, hnc⟩ := Option.isSome_iff_exists.mp
      (hsome c (List.mem_cons_self _ _))
    have hnext : nc.next = some d := by
      have h1 := hchain.1.1
      rw [hnc] at h1
      simpa using h1
    refine NextPath.cons hnc ?_
    rw [hnext]
    rw [List.getLastD_cons] at hlast
    exact ih d hchain.2 (fun x hx => hsome x (List.mem_cons_of_mem _ hx)) hlast

/-- `list::reverse()` on a well-formed list: succeeds, reverses the
spine (the data nodes in chain order), swaps the sentinel roles,
keeps every allocated address (no node is created, destroyed, copied
or moved — each node merely has its two links swapped), and keeps
every stored value in place. -/
theorem reverseOp_spine {L : ListS α} {ids : List Nat} (hS : Spine L ids) :
    ∃ L', reverseOp L = some L' ∧
      Spine L' ids.reverse ∧
      L'.self = L.self ∧ L'.head = L.tail ∧ L'.tail = L.head ∧
      L'.n = L.n ∧ L'.fresh = L.fresh ∧
      keys L'.heap = keys L.heap ∧
      (∀ k nd, hget L.heap k = some nd → k ∈ L.head :: ids ++ [L.tail] →
        hget L'.heap k = some (swapNode nd)) ∧
      (∀ k, k ∉ L.head :: ids ++ [L.tail] → hget L'.heap k = hget L.heap k) ∧
      (∀ k, (hget L'.heap k).map Node.val = (hget L.heap k).map Node.val) := by
  obtain ⟨hchain, hnodup, hk1, hk2, hknd, hhp, hhv, htn, htv, hdata, hcount, hfresh⟩ := hS
  have hsome : ∀ x ∈ L.head :: ids ++ [L.tail], (hget L.heap x).isSome = true :=
    fun x hx => mem_keys_iff_isSome.mp (hk2 x hx)
  have hchain2 : List.Chain' (linked L.heap) (L.head :: (ids ++ [L.tail])) := by
    rw [← List.cons_append]
    exact hchain
  have hsome2 : ∀ x ∈ L.head :: (ids ++ [L.tail]), (hget L.heap x).isSome = true := by
    intro x hx
    refine hsome x ?_
    rw [List.cons_append]
    exact hx
  have hlast : (hget L.heap ((ids ++ [L.tail]).getLastD L.head)).bind Node.next
      = none := by
    rw [List.getLastD_concat]
    exact bind_none_of_map htn
  have hp : NextPath L.heap (some L.head) (L.head :: (ids ++ [L.tail])) :=
    chain_nextPath _ _ hchain2 hsome2 hlast
  have hnodup2 : (L.head :: (ids ++ [L.tail])).Nodup := by
    rw [← List.cons_append]
    exact hnodup
  have hlenle : (L.head :: (ids ++ [L.tail])).length ≤ L.heap.length + 1 := by
    have hsub : (L.head :: (ids ++ [L.tail])) ⊆ keys L.heap := by
      intro x hx
      refine hk2 x ?_
      rw [List.cons_append]
      exact hx
    have hle := (hnodup2.subperm hsub).length_le
    have hkl : (keys L.heap).length = L.heap.length := List.length_map _ _
    omega
  have hrl := revLoop_eq _ L.heap (some L.head) hp hnodup2 (L.heap.length + 1) hlenle
  have hmemget : ∀ k nd, hget L.heap k = some nd →
      k ∈ L.head :: (ids ++ [L.tail]) →
      hget (swapAll L.heap L.heap (L.head :: (ids ++ [L.tail]))) k
        = some (swapNode nd) := by
    intro k nd hk hkmem
    exact hget_swapAll_mem _ L.heap k nd hnodup2 hkmem hk (by rw [hk]; rfl)
  have hnotget : ∀ k, k ∉ L.head :: (ids ++ [L.tail]) →
      hget (swapAll L.heap L.heap (L.head :: (ids ++ [L.tail]))) k
        = hget L.heap k :=
    fun k hk => hget_swapAll_not_mem _ L.heap k hk
  obtain ⟨ntl, hntl⟩ := Option.isSome_iff_exists.mp
    (hsome2 L.tail (List.mem_cons_of_mem _ (List.mem_append_right _
      (List.mem_cons_self _ _))))
  obtain ⟨nhd, hnhd⟩ := Option.isSome_iff_exists.mp
    (hsome2 L.head (List.mem_cons_self _ _))
  have hntln : ntl.next = none := by
    rw [hntl] at htn
    simpa using htn
  have hntlv : ntl.val = none := by
    rw [hntl] at htv
    simpa using htv
  have hnhdp : nhd.prev = none := by
    rw [hnhd] at hhp
    simpa using hhp
  have hnhdv : nhd.val = none := by
    rw [hnhd] at hhv
    simpa using hhv
  have hvalpt : ∀ k,
      (hget (swapAll L.heap L.heap (L.head :: (ids ++ [L.tail]))) k).map Node.val
        = (hget L.heap k).map Node.val := by
    intro k
    by_cases hk : k ∈ L.head :: (ids ++ [L.tail])
    · obtain ⟨nd, hnd⟩ := Option.isSome_iff_exists.mp (hsome2 k hk)
      rw [hmemget k nd hnd hk, hnd]
      rfl
    · rw [hnotget k hk]
  refine ⟨{ L with
      heap := swapAll L.heap L.heap (L.head :: (ids ++ [L.tail])),
      head := L.tail,
      tail := L.head },
    ?_, ?_, rfl, rfl, rfl, rfl, rfl, keys_swapAll _ _, ?_, ?_, hvalpt⟩
  · simp only [reverseOp, hrl]
  · have hshrev : (L.tail :: ids.reverse) ++ [L.head]
        = (L.head :: (ids ++ [L.tail])).reverse := by simp
    refine ⟨?_, ?_, ?_, ?_, ?_, ?_, ?_, ?_, ?_, ?_, ?_, ?_⟩
    · dsimp only
      rw [hshrev, List.chain'_reverse]
      refine chain'_imp_mem (fun a b ha hb hab => ?_) hchain2
      obtain ⟨nda, hnda, hndan⟩ := Option.bind_eq_some.mp hab.1
      obtain ⟨ndb, hndb, hndbp⟩ := Option.bind_eq_some.mp hab.2
      show linked _ b a
      refine ⟨?_, ?_⟩
      · rw [hmemget b ndb hndb hb]
        simp [swapNode, hndbp]
      · rw [hmemget a nda hnda ha]
        simp [swapNode, hndan]
    · dsimp only
      rw [hshrev, List.nodup_reverse]
      exact hnodup2
    · dsimp only
      intro k hk
      rw [keys_swapAll] at hk
      rw [hshrev, List.mem_reverse]
      exact hk1 k hk
    · dsimp only
      intro k hk
      rw [hshrev, List.mem_reverse] at hk
      rw [keys_swapAll]
      exact hk2 k hk
    · dsimp only
      rw [keys_swapAll]
      exact hknd
    · dsimp only
      rw [hmemget L.tail ntl hntl (List.mem_cons_of_mem _
        (List.mem_append_right _ (List.mem_cons_self _ _)))]
      simp [swapNode, hntln]
    · dsimp only
      rw [hmemget L.tail ntl hntl (List.mem_cons_of_mem _
        (List.mem_append_right _ (List.mem_cons_self _ _)))]
      simp [swapNode, hntlv]
    · dsimp only
      rw [hmemget L.head nhd hnhd (List.mem_cons_self _ _)]
      simp [swapNode, hnhdp]
    · dsimp only
      rw [hmemget L.head nhd hnhd (List.mem_cons_self _ _)]
      simp [swapNode, hnhdv]
    · dsimp only
      intro i hi
      rw [List.mem_reverse] at hi
      have hifull : i ∈ L.head :: (ids ++ [L.tail]) :=
        List.mem_cons_of_mem _ (List.mem_append_left _ hi)
      rw [bind_congr_of_map (hvalpt i)]
      apply hdata
      exact hi
    · dsimp only
      rw [List.length_reverse]
      exact hcount
    · dsimp only
      intro k hk
      rw [keys_swapAll] at hk
      exact hfresh k hk
  · intro k nd hk hkmem
    exact hmemget k nd hk hkmem
  · intro k hkmem
    exact hnotget k hkmem

/-- C5: `reverse()` reverses the element sequence by relinking alone
(node identity preserved: same addresses, same values), and applying
it twice restores the original order and node identities, so a
surviving iterator dereferences to the same value as before. -/
theorem reverse_correct {L : ListS Nat} {ids : List Nat} (hS : Spine L ids) :
    reverseOk L ids := by
  obtain ⟨L1, hrev, hsp1, hself1, hhead1, htail1, hn1, hfresh1, hkeys1,
    hmem1, hnot1, hval1⟩ := reverseOp_spine hS
  obtain ⟨L2, hrev2, _, hself2, hhead2, htail2, hn2, hfresh2, hkeys2,
    hmem2, hnot2, _⟩ := reverseOp_spine hsp1
  have hmemiff : ∀ k, (k ∈ L1.head :: ids.reverse ++ [L1.tail]) ↔
      (k ∈ L.head :: ids ++ [L.tail]) := by
    intro k
    have hfull1 : L1.head :: ids.reverse ++ [L1.tail]
        = (L.head :: ids ++ [L.tail]).reverse := by
      rw [hhead1, htail1]
      simp
    rw [hfull1, List.mem_reverse]
  have hgetpt : ∀ k, hget L2.heap k = hget L.heap k := by
    intro k
    by_cases hk : k ∈ L.head :: ids ++ [L.tail]
    · obtain ⟨nd, hnd⟩ := Option.isSome_iff_exists.mp
        (mem_keys_iff_isSome.mp (hS.2.2.2.1 k hk))
      have h1 : hget L1.heap k = some (swapNode nd) := hmem1 k nd hnd hk
      have h2 : hget L2.heap k = some (swapNode (swapNode nd)) :=
        hmem2 k (swapNode nd) h1 ((hmemiff k).mpr hk)
      rw [h2, swapNode_swapNode, hnd]
    · rw [hnot2 k (fun hx => hk ((hmemiff k).mp hx)), hnot1 k hk]
  have hself : L2.self = L.self := by rw [hself2, hself1]
  have hhead : L2.head = L.head := by rw [hhead2, htail1]
  have htail : L2.tail = L.tail := by rw [htail2, hhead1]
  have hnn : L2.n = L.n := by rw [hn2, hn1]
  have hff : L2.fresh = L.fresh := by rw [hfresh2, hfresh1]
  unfold reverseOk
  rw [hrev]
  refine ⟨hsp1, ?_, hkeys1, ?_⟩
  · unfold elemsAt
    rw [List.filterMap_congr (fun i _ => bind_congr_of_map (hval1 i)),
      List.filterMap_reverse]
  · rw [hrev2]
    refine ⟨hself, hhead, htail, hnn, hff, hgetpt, ?_⟩
    intro it
    rcases it with ⟨p, ow⟩
    cases ow with
    | none => rfl
    | some o =>
      cases p with
      | none => rfl
      | some q =>
        rw [derefIt.eq_def, derefIt.eq_def]
        dsimp only
        rw [hself, hhead, htail, hgetpt q]

/-- Witness for C5 at the concrete list `[5]`. -/
theorem reverse_correct_witness : reverseOk oneList [2] :=
  reverse_correct spine_oneList

end sjtu
